import Mathlib

set_option maxHeartbeats 1000000

/-!
Verification of the wordle-rs core: the two-pass feedback evaluator
(`InMemoryServer::submit`), the automated server's error handling, the
solver's per-letter constraint model (`LetterState`) with its update loop,
and the consistency predicate `satisfies`.  Letters are alphabet indices
(`Fin 26`), words are fixed-length-5 sequences (`Fin 5 → Letter`).
-/

abbrev Letter := Fin 26

abbrev Word := Fin 5 → Letter

inductive LetterOutcome
  | Correct
  | Present
  | Absent
deriving DecidableEq

abbrev GuessOutcome := Fin 5 → LetterOutcome

/-- `Word::count`: the number of occurrences of a letter in a word. -/
def Word.count (w : Word) (l : Letter) : Nat :=
  (Finset.univ.filter (fun i => w i = l)).card

/-- `Word::contains`: whether the word holds the letter anywhere. -/
def Word.contains (w : Word) (l : Letter) : Bool :=
  (List.finRange 5).any (fun i => w i == l)

theorem Word.contains_iff (w : Word) (l : Letter) :
    Word.contains w l = true ↔ ∃ i : Fin 5, w i = l := by
  simp [Word.contains]

theorem Word.count_pos_iff (w : Word) (l : Letter) :
    0 < Word.count w l ↔ ∃ i : Fin 5, w i = l := by
  simp [Word.count, Finset.card_pos, Finset.filter_nonempty_iff]

/-! ### The two-pass feedback evaluator (`InMemoryServer::submit`, second half) -/

/-- First pass of `submit`: mark `Correct` wherever guess and answer agree
(`GuessOutcome::default()` is all-`Absent`). -/
def firstPassResult (answer guess : Word) : GuessOutcome :=
  fun i => if guess i = answer i then .Correct else .Absent

/-- First pass of `submit`: `correct_count_in_guess` after the first loop. -/
def firstPassCount (answer guess : Word) : Letter → Nat :=
  fun j => (Finset.univ.filter (fun i => guess i = answer i ∧ guess i = j)).card

/-- One iteration of the second pass of `submit`, at position `i`.  The state is
the pair `(correct_count_in_guess, result)`. -/
def pass2step (countInAnswer : Letter → Nat) (guess : Word) (i : Fin 5)
    (st : (Letter → Nat) × GuessOutcome) : (Letter → Nat) × GuessOutcome :=
  if st.2 i = .Correct then st
  else if countInAnswer (guess i) - st.1 (guess i) = 0 then
    (st.1, Function.update st.2 i .Absent)
  else
    (Function.update st.1 (guess i) (st.1 (guess i) + 1), Function.update st.2 i .Present)

/-- The second pass of `submit`: run `r` iterations starting at position `m`. -/
def pass2go (countInAnswer : Letter → Nat) (guess : Word) :
    Nat → Nat → (Letter → Nat) × GuessOutcome → (Letter → Nat) × GuessOutcome
  | 0, _, st => st
  | r + 1, m, st =>
    if h : m < 5 then pass2go countInAnswer guess r (m + 1) (pass2step countInAnswer guess ⟨m, h⟩ st)
    else st

/-- The full evaluation in `InMemoryServer::submit`, as a function of the server's
`answer` and `count_in_answer` fields. -/
def evalGuess (answer : Word) (countInAnswer : Letter → Nat) (guess : Word) : GuessOutcome :=
  (pass2go countInAnswer guess 5 0 (firstPassCount answer guess, firstPassResult answer guess)).2

/-- Scoring a guess against an answer (the server's `count_in_answer` is the
letter-count table of the answer, as built by `InMemoryServer::new`). -/
def evaluate (a g : Word) : GuessOutcome := evalGuess a (Word.count a) g

def allCorrect : GuessOutcome := fun _ => .Correct

/-! ### The automated server (`InMemoryServer`) -/

inductive ServerError
  | GameOver
  | AlreadyGuessed
  | InvalidWord
deriving DecidableEq

structure InMemoryServer where
  answer : Word
  countInAnswer : Letter → Nat
  guessIndex : Nat
  guesses : Fin 6 → Option Word
  dictionary : List Word

/-- `InMemoryServer::new`: `count_in_answer` tallies the answer's letters. -/
def InMemoryServer.new (answer : Word) (dictionary : List Word) : InMemoryServer :=
  { answer := answer
    countInAnswer := fun j => Word.count answer j
    guessIndex := 0
    guesses := fun _ => none
    dictionary := dictionary }

/-- `self.guesses[..self.guess_index].contains(&Some(guess))`. -/
def InMemoryServer.prevGuessed (s : InMemoryServer) (g : Word) : Prop :=
  ∃ k : Fin 6, k.val < s.guessIndex ∧ s.guesses k = some g

instance (s : InMemoryServer) (g : Word) : Decidable (s.prevGuessed g) := by
  unfold InMemoryServer.prevGuessed; infer_instance

/-- `InMemoryServer::submit`: validation, recording the guess, then the
two-pass evaluation.  Returned with the post-call server state (errors
leave the state untouched, as in the source's early returns). -/
def InMemoryServer.submit (s : InMemoryServer) (g : Word) :
    InMemoryServer × Except ServerError GuessOutcome :=
  if h : s.guessIndex < 6 then
    if s.prevGuessed g then (s, .error .AlreadyGuessed)
    else if g ∈ s.dictionary then
      ({ s with
          guesses := Function.update s.guesses ⟨s.guessIndex, h⟩ (some g)
          guessIndex := s.guessIndex + 1 },
        .ok (evalGuess s.answer s.countInAnswer g))
    else (s, .error .InvalidWord)
  else (s, .error .GameOver)

/-! ### The solver's constraint model (`solver.rs`) -/

inductive PositionState
  | Yes
  | Maybe
  | No
deriving DecidableEq

/-- `PositionState::not`. -/
def PositionState.not : PositionState → PositionState
  | .Yes => .No
  | .No => .Yes
  | .Maybe => .Maybe

inductive LetterState
  | Unknown
  | Positions (ps : Fin 5 → PositionState)
  | AntiPositions (ps : Fin 5 → PositionState)
  | Absent
deriving DecidableEq

/-- The solver's consistency predicate `satisfies`. -/
def satisfies (w : Word) (state : Letter → LetterState) : Bool :=
  ((List.finRange 5).all fun i =>
    match state (w i) with
    | .Absent => false
    | .Unknown => true
    | .Positions ps =>
      match ps i with
      | .Yes => true
      | .Maybe => true
      | .No => false
    | .AntiPositions ps =>
      match ps i with
      | .Yes => false
      | .Maybe => true
      | .No => true)
  && ((List.finRange 26).all fun j =>
    match state j with
    | .Positions _ => Word.contains w j
    | _ => true)

/-- The joint state mutated by the update loop in `Solver::guess`:
`letters_state` together with the candidate dictionary (the loop's
`Absent`-on-`Positions` branch prunes the dictionary in place). -/
structure UpdState where
  ls : Letter → LetterState
  dict : List Word
deriving DecidableEq

/-- The `Correct` branch of the update loop, for the guessed letter itself:
position `i` becomes `Yes` (inverting `AntiPositions` first). -/
def correctOwn (i : Fin 5) : LetterState → LetterState
  | .Unknown => .Positions (Function.update (fun _ => .Maybe) i .Yes)
  | .Positions ps => .Positions (Function.update ps i .Yes)
  | .AntiPositions ps => .Positions (Function.update (fun k => (ps k).not) i .Yes)
  | .Absent => .Positions (Function.update (fun _ => .No) i .Yes)

/-- The `Correct` branch of the update loop, for every other letter:
position `i` is excluded for it. -/
def correctOther (i : Fin 5) : LetterState → LetterState
  | .Absent => .Absent
  | .Unknown => .AntiPositions (Function.update (fun _ => .Maybe) i .Yes)
  | .AntiPositions ps => .AntiPositions (Function.update ps i .Yes)
  | .Positions ps => .Positions (Function.update ps i .No)

/-- The body of the update loop in `Solver::guess` at position `i`.
`none` models the `unreachable!()` panic (outcome `Present` for a letter
already known `Absent`). -/
def updateAt (g : Word) (o : GuessOutcome) (i : Fin 5) (st : UpdState) : Option UpdState :=
  let j := g i
  match o i with
  | .Absent =>
    match st.ls j with
    | .Unknown => some { st with ls := Function.update st.ls j .Absent }
    | .Positions ps =>
      some { ls := Function.update st.ls j (.Positions (Function.update ps i .No))
             dict := st.dict.filter (fun w => Word.count w j < Word.count g j) }
    | .AntiPositions _ => some { st with ls := Function.update st.ls j .Absent }
    | .Absent => some st
  | .Present =>
    match st.ls j with
    | .Unknown =>
      some { st with ls := Function.update st.ls j (.Positions (Function.update (fun _ => .Maybe) i .No)) }
    | .Positions ps =>
      some { st with ls := Function.update st.ls j (.Positions (Function.update ps i .No)) }
    | .AntiPositions ps =>
      some { st with ls := Function.update st.ls j (.Positions (Function.update (fun k => (ps k).not) i .No)) }
    | .Absent => none
  | .Correct =>
    some { st with ls := fun k => if k = j then correctOwn i (st.ls j) else correctOther i (st.ls k) }

/-- The update loop of `Solver::guess`: run `r` iterations starting at position `m`. -/
def updateGo (g : Word) (o : GuessOutcome) : Nat → Nat → UpdState → Option UpdState
  | 0, _, st => some st
  | r + 1, m, st =>
    if h : m < 5 then
      match updateAt g o ⟨m, h⟩ st with
      | none => none
      | some st' => updateGo g o r (m + 1) st'
    else some st

/-- The whole "update knowledge about the letters" loop of `Solver::guess`. -/
def updateState (g : Word) (o : GuessOutcome) (st : UpdState) : Option UpdState :=
  updateGo g o 5 0 st

inductive SolverError
  | Stumped
  | Server (e : ServerError)
deriving DecidableEq

structure Solver where
  guessIndex : Nat
  guessOutcomes : Fin 6 → Option GuessOutcome
  lettersState : Letter → LetterState
  dictionary : List Word

/-- `Solver::guess`, with the server abstracted to its `submit` function.
`none` models a panic (the `unreachable!()` in the update loop, or writing
`guess_outcomes[guess_index]` out of bounds); otherwise the post-call solver
state and the result are returned.  `Vec::pop` takes the last list element. -/
def Solver.guess (s : Solver) (submitFn : Word → Except ServerError GuessOutcome) :
    Option (Solver × Except SolverError (Word × GuessOutcome)) :=
  match s.dictionary.getLast? with
  | none => some (s, .error .Stumped)
  | some g =>
    let s0 : Solver := { s with dictionary := s.dictionary.dropLast }
    match submitFn g with
    | .error e => some (s0, .error (.Server e))
    | .ok o =>
      if h6 : s0.guessIndex < 6 then
        let s1 : Solver := { s0 with
          guessOutcomes := Function.update s0.guessOutcomes ⟨s0.guessIndex, h6⟩ (some o)
          guessIndex := s0.guessIndex + 1 }
        match updateState g o ⟨s1.lettersState, s1.dictionary⟩ with
        | none => none
        | some st =>
          let dict' := st.dict.filter (fun w => satisfies w st.ls)
          let s2 : Solver := { s1 with lettersState := st.ls, dictionary := dict' }
          if dict' = [] ∧ ¬o = allCorrect then some (s2, .error .Stumped)
          else some (s2, .ok (g, o))
      else none

instance {e a : Type} [DecidableEq e] [DecidableEq a] : DecidableEq (Except e a) := fun x y =>
  match x, y with
  | .ok v, .ok w => if h : v = w then isTrue (by rw [h]) else isFalse (by intro hh; cases hh; exact h rfl)
  | .error v, .error w => if h : v = w then isTrue (by rw [h]) else isFalse (by intro hh; cases hh; exact h rfl)
  | .ok _, .error _ => isFalse (by intro h; cases h)
  | .error _, .ok _ => isFalse (by intro h; cases h)

/-- Build a five-letter word from its letters. -/
def mkWord (a b c d e : Letter) : Word :=
  fun i => match i with
  | ⟨0, _⟩ => a
  | ⟨1, _⟩ => b
  | ⟨2, _⟩ => c
  | ⟨3, _⟩ => d
  | ⟨4, _⟩ => e

/-- Build an outcome row from its five per-position outcomes. -/
def mkOutcome (a b c d e : LetterOutcome) : GuessOutcome :=
  fun i => match i with
  | ⟨0, _⟩ => a
  | ⟨1, _⟩ => b
  | ⟨2, _⟩ => c
  | ⟨3, _⟩ => d
  | ⟨4, _⟩ => e

/-! ### The consistency predicate: specification shape (C2) -/

/-- C2: `satisfies` accepts a word exactly when no position-wise constraint is
violated and every `Positions`-letter occurs in the word. -/
theorem satisfies_iff_spec (w : Word) (state : Letter → LetterState) :
    satisfies w state = true ↔
      ((∀ i : Fin 5,
          state (w i) ≠ .Absent ∧
          (∀ ps, state (w i) = .Positions ps → ps i ≠ .No) ∧
          (∀ ps, state (w i) = .AntiPositions ps → ps i ≠ .Yes)) ∧
        (∀ j : Letter, (∃ ps, state j = .Positions ps) → ∃ i : Fin 5, w i = j)) := by
  unfold satisfies
  rw [Bool.and_eq_true, List.all_eq_true, List.all_eq_true]
  simp only [List.mem_finRange, true_implies]
  constructor
  · rintro ⟨h1, h2⟩
    constructor
    · intro i
      have hi := h1 i
      rcases hst : state (w i) with _ | ps | ps | _ <;> rw [hst] at hi
      · exact ⟨by simp, by simp, by simp⟩
      · refine ⟨by simp, ?_, by simp⟩
        rintro ps' hps' hNo
        obtain rfl : ps = ps' := by injection hps'
        have hi2 : (match ps i with
          | PositionState.Yes => true
          | PositionState.Maybe => true
          | PositionState.No => false) = true := hi
        rw [hNo] at hi2
        simp at hi2
      · refine ⟨by simp, by simp, ?_⟩
        rintro ps' hps' hYes
        obtain rfl : ps = ps' := by injection hps'
        have hi2 : (match ps i with
          | PositionState.Yes => false
          | PositionState.Maybe => true
          | PositionState.No => true) = true := hi
        rw [hYes] at hi2
        simp at hi2
      · simp at hi
    · intro j hj
      obtain ⟨ps, hps⟩ := hj
      have h2j := h2 j
      rw [hps] at h2j
      rw [← Word.contains_iff]
      simpa using h2j
  · rintro ⟨h1, h2⟩
    constructor
    · intro i
      obtain ⟨hA, hP, hAnti⟩ := h1 i
      rcases hst : state (w i) with _ | ps | ps | _
      · simp
      · have hne := hP ps hst
        cases hv : ps i
        · simp [hv]
        · simp [hv]
        · exact absurd hv hne
      · have hne := hAnti ps hst
        cases hv : ps i
        · exact absurd hv hne
        · simp [hv]
        · simp [hv]
      · exact absurd hst hA
    · intro j
      rcases hst : state j with _ | ps | ps | _
      · simp
      · simpa [Word.contains_iff] using h2 j ⟨ps, hst⟩
      · simp
      · simp

/-! ### Counting machinery for the second pass -/

/-- Number of positions of the guess holding `L` already marked `Present`. -/
def presCnt (g : Word) (res : GuessOutcome) (L : Letter) : Nat :=
  (Finset.univ.filter (fun i => res i = .Present ∧ g i = L)).card

theorem firstPassCount_le (a g : Word) (L : Letter) :
    firstPassCount a g L ≤ Word.count a L := by
  unfold firstPassCount Word.count
  apply Finset.card_le_card
  intro p hp
  simp only [Finset.mem_filter, Finset.mem_univ, true_and] at hp ⊢
  rw [← hp.2, hp.1]

theorem presCnt_update_absent (g : Word) (res : GuessOutcome) (i : Fin 5) (L : Letter)
    (hi : res i ≠ .Present) :
    presCnt g (Function.update res i .Absent) L = presCnt g res L := by
  unfold presCnt
  congr 1
  ext p
  by_cases hp : p = i
  · subst hp
    simp [Function.update_same, hi]
  · simp [Function.update_noteq hp]

theorem presCnt_update_present_self (g : Word) (res : GuessOutcome) (i : Fin 5)
    (hi : res i ≠ .Present) :
    presCnt g (Function.update res i .Present) (g i) = presCnt g res (g i) + 1 := by
  unfold presCnt
  have hset : (Finset.univ.filter (fun p => Function.update res i .Present p = .Present ∧ g p = g i))
      = insert i (Finset.univ.filter (fun p => res p = .Present ∧ g p = g i)) := by
    ext p
    by_cases hp : p = i
    · subst hp
      simp [Function.update_same]
    · simp [Function.update_noteq hp, hp]
  rw [hset, Finset.card_insert_of_not_mem (by simp [hi])]

theorem presCnt_update_present_other (g : Word) (res : GuessOutcome) (i : Fin 5) (L : Letter)
    (hL : g i ≠ L) :
    presCnt g (Function.update res i .Present) L = presCnt g res L := by
  unfold presCnt
  congr 1
  ext p
  by_cases hp : p = i
  · subst hp
    simp [Function.update_same, hL]
  · simp [Function.update_noteq hp]

/-- The invariant of the second pass after processing positions `0..m-1`. -/
def PassInv (a g : Word) (m : Nat) (st : (Letter → Nat) × GuessOutcome) : Prop :=
  (∀ i : Fin 5, st.2 i = .Correct ↔ g i = a i) ∧
  (∀ i : Fin 5, m ≤ i.val → st.2 i ≠ .Present) ∧
  (∀ L : Letter, st.1 L = firstPassCount a g L + presCnt g st.2 L) ∧
  (∀ L : Letter, st.1 L ≤ Word.count a L)

theorem PassInv_init (a g : Word) : PassInv a g 0 (firstPassCount a g, firstPassResult a g) := by
  refine ⟨?_, ?_, ?_, ?_⟩
  · intro i
    show firstPassResult a g i = .Correct ↔ g i = a i
    unfold firstPassResult
    split_ifs with h <;> simp [h]
  · intro i _
    show firstPassResult a g i ≠ .Present
    unfold firstPassResult
    split_ifs <;> simp
  · intro L
    have h0 : presCnt g (firstPassResult a g) L = 0 := by
      unfold presCnt
      rw [Finset.card_eq_zero, Finset.eq_empty_iff_forall_not_mem]
      intro p hp
      simp only [Finset.mem_filter, Finset.mem_univ, true_and] at hp
      have := hp.1
      unfold firstPassResult at this
      split_ifs at this
    show firstPassCount a g L = firstPassCount a g L + presCnt g (firstPassResult a g) L
    rw [h0]
    rfl
  · intro L
    exact firstPassCount_le a g L

theorem pass2step_snd_noteq (ca : Letter → Nat) (g : Word) (i : Fin 5)
    (st : (Letter → Nat) × GuessOutcome) (p : Fin 5) (hp : p ≠ i) :
    (pass2step ca g i st).2 p = st.2 p := by
  unfold pass2step
  split_ifs <;> simp [Function.update_noteq hp]

theorem pass2step_cases (ca : Letter → Nat) (g : Word) (i : Fin 5)
    (st : (Letter → Nat) × GuessOutcome) :
    (st.2 i = .Correct ∧ pass2step ca g i st = st) ∨
    (st.2 i ≠ .Correct ∧ ca (g i) ≤ st.1 (g i) ∧
      pass2step ca g i st = (st.1, Function.update st.2 i .Absent)) ∨
    (st.2 i ≠ .Correct ∧ st.1 (g i) < ca (g i) ∧
      pass2step ca g i st =
        (Function.update st.1 (g i) (st.1 (g i) + 1), Function.update st.2 i .Present)) := by
  unfold pass2step
  split_ifs with h1 h2
  · exact Or.inl ⟨h1, rfl⟩
  · exact Or.inr (Or.inl ⟨h1, Nat.sub_eq_zero_iff_le.mp h2, rfl⟩)
  · exact Or.inr (Or.inr ⟨h1, Nat.lt_of_sub_ne_zero h2, rfl⟩)

theorem pass2step_inv (a g : Word) (m : Nat) (h : m < 5)
    (st : (Letter → Nat) × GuessOutcome) (hinv : PassInv a g m st) :
    PassInv a g (m + 1) (pass2step (Word.count a) g ⟨m, h⟩ st) := by
  obtain ⟨hc, hb, hacc, hle⟩ := hinv
  have hnp : st.2 ⟨m, h⟩ ≠ .Present := hb ⟨m, h⟩ (le_refl m)
  rcases pass2step_cases (Word.count a) g ⟨m, h⟩ st with ⟨hC, heq⟩ | ⟨hC, hZ, heq⟩ | ⟨hC, hZ, heq⟩
  · rw [heq]
    exact ⟨hc, fun i hi => hb i (by omega), hacc, hle⟩
  · rw [heq]
    refine ⟨?_, ?_, ?_, hle⟩
    · intro i
      by_cases hp : i = ⟨m, h⟩
      · subst hp
        simp only [Function.update_same]
        constructor
        · intro hh
          exact absurd hh (by simp)
        · intro hh
          exact absurd ((hc _).mpr hh) hC
      · simpa [Function.update_noteq hp] using hc i
    · intro i hi
      have hp : i ≠ ⟨m, h⟩ := by
        intro hh
        rw [hh] at hi
        simp at hi
      simpa [Function.update_noteq hp] using hb i (by omega)
    · intro L
      simpa [presCnt_update_absent g st.2 ⟨m, h⟩ L hnp] using hacc L
  · rw [heq]
    refine ⟨?_, ?_, ?_, ?_⟩
    · intro i
      by_cases hp : i = ⟨m, h⟩
      · subst hp
        simp only [Function.update_same]
        constructor
        · intro hh
          exact absurd hh (by simp)
        · intro hh
          exact absurd ((hc _).mpr hh) hC
      · simpa [Function.update_noteq hp] using hc i
    · intro i hi
      have hp : i ≠ ⟨m, h⟩ := by
        intro hh
        rw [hh] at hi
        simp at hi
      simpa [Function.update_noteq hp] using hb i (by omega)
    · intro L
      by_cases hL : L = g ⟨m, h⟩
      · subst hL
        show Function.update st.1 (g ⟨m, h⟩) (st.1 (g ⟨m, h⟩) + 1) (g ⟨m, h⟩) =
          firstPassCount a g (g ⟨m, h⟩) + presCnt g (Function.update st.2 ⟨m, h⟩ .Present) (g ⟨m, h⟩)
        rw [Function.update_same, presCnt_update_present_self g st.2 ⟨m, h⟩ hnp, hacc _]
        omega
      · show Function.update st.1 (g ⟨m, h⟩) (st.1 (g ⟨m, h⟩) + 1) L =
          firstPassCount a g L + presCnt g (Function.update st.2 ⟨m, h⟩ .Present) L
        rw [Function.update_noteq hL,
          presCnt_update_present_other g st.2 ⟨m, h⟩ L (fun hh => hL hh.symm)]
        exact hacc L
    · intro L
      by_cases hL : L = g ⟨m, h⟩
      · subst hL
        show Function.update st.1 (g ⟨m, h⟩) (st.1 (g ⟨m, h⟩) + 1) (g ⟨m, h⟩) ≤ Word.count a (g ⟨m, h⟩)
        rw [Function.update_same]
        omega
      · show Function.update st.1 (g ⟨m, h⟩) (st.1 (g ⟨m, h⟩) + 1) L ≤ Word.count a L
        rw [Function.update_noteq hL]
        exact hle L

theorem corr_add_pres_lt (a g : Word) (res : GuessOutcome) (i : Fin 5)
    (hres : ∀ p, res p = .Correct ↔ g p = a p) (hni : res i ≠ .Correct)
    (hnp : res i ≠ .Present) :
    firstPassCount a g (g i) + presCnt g res (g i) < Word.count g (g i) := by
  classical
  have hdisj : Disjoint
      (Finset.univ.filter (fun p => g p = a p ∧ g p = g i))
      (Finset.univ.filter (fun p => res p = .Present ∧ g p = g i)) := by
    rw [Finset.disjoint_left]
    intro p h1 h2
    simp only [Finset.mem_filter, Finset.mem_univ, true_and] at h1 h2
    have : res p = .Correct := (hres p).mpr h1.1
    rw [this] at h2
    exact absurd h2.1 (by simp)
  have hsub : (Finset.univ.filter (fun p => g p = a p ∧ g p = g i)) ∪
      (Finset.univ.filter (fun p => res p = .Present ∧ g p = g i)) ⊆
      (Finset.univ.filter (fun p => g p = g i)).erase i := by
    intro p hp
    simp only [Finset.mem_union, Finset.mem_filter, Finset.mem_univ, true_and,
      Finset.mem_erase] at hp ⊢
    rcases hp with h1 | h2
    · refine ⟨?_, h1.2⟩
      intro hh
      subst hh
      exact hni ((hres p).mpr h1.1)
    · refine ⟨?_, h2.2⟩
      intro hh
      subst hh
      exact hnp h2.1
  have hmem : i ∈ Finset.univ.filter (fun p => g p = g i) := by simp
  have hcard := Finset.card_le_card hsub
  rw [Finset.card_union_of_disjoint hdisj, Finset.card_erase_of_mem hmem] at hcard
  have hpos : 0 < (Finset.univ.filter (fun p => g p = g i)).card :=
    Finset.card_pos.mpr ⟨i, hmem⟩
  unfold firstPassCount presCnt Word.count
  omega

theorem presCnt_eq_zero_of_no_earlier (g : Word) (res : GuessOutcome) (L : Letter) (m : Nat)
    (hb : ∀ p : Fin 5, m ≤ p.val → res p ≠ .Present)
    (hno : ∀ p : Fin 5, p.val < m → g p ≠ L) :
    presCnt g res L = 0 := by
  unfold presCnt
  rw [Finset.card_eq_zero, Finset.eq_empty_iff_forall_not_mem]
  intro p hp
  simp only [Finset.mem_filter, Finset.mem_univ, true_and] at hp
  by_cases hm : m ≤ p.val
  · exact hb p hm hp.1
  · exact hno p (by omega) hp.2

/-- Master lemma for the second pass: the invariant propagates to the end, the
already-processed prefix is frozen, and every position resolved `Absent` was
resolved with its letter's budget exhausted. -/
theorem pass2go_master (a g : Word) (r : Nat) :
    ∀ (m : Nat) (st : (Letter → Nat) × GuessOutcome), m + r = 5 → PassInv a g m st →
      PassInv a g 5 (pass2go (Word.count a) g r m st) ∧
      (∀ i : Fin 5, i.val < m → (pass2go (Word.count a) g r m st).2 i = st.2 i) ∧
      (∀ i : Fin 5, m ≤ i.val → (pass2go (Word.count a) g r m st).2 i = .Absent →
        g i ≠ a i ∧ Word.count a (g i) < Word.count g (g i)) ∧
      (∀ i : Fin 5, m ≤ i.val → (pass2go (Word.count a) g r m st).2 i = .Absent →
        (∀ p : Fin 5, p.val < i.val → g p ≠ g i) →
        Word.count a (g i) = firstPassCount a g (g i)) := by
  induction r with
  | zero =>
    intro m st hm hinv
    have hm5 : m = 5 := by omega
    subst hm5
    rw [pass2go]
    refine ⟨hinv, fun i _ => rfl, fun i hi _ => ?_, fun i hi _ _ => ?_⟩
    · exact absurd hi (by omega)
    · exact absurd hi (by omega)
  | succ r ih =>
    intro m st hm hinv
    have h5 : m < 5 := by omega
    rw [pass2go, dif_pos h5]
    have hstep := pass2step_inv a g m h5 st hinv
    obtain ⟨ih1, ih2, ih3, ih4⟩ :=
      ih (m + 1) (pass2step (Word.count a) g ⟨m, h5⟩ st) (by omega) hstep
    obtain ⟨hc, hb, hacc, hle⟩ := hinv
    have hnp : st.2 ⟨m, h5⟩ ≠ .Present := hb ⟨m, h5⟩ (le_refl m)
    refine ⟨ih1, ?_, ?_, ?_⟩
    · intro i hi
      rw [ih2 i (by omega)]
      exact pass2step_snd_noteq (Word.count a) g ⟨m, h5⟩ st i
        (fun hh => by rw [hh] at hi; simp at hi)
    · intro i hi habs
      by_cases hieq : i = ⟨m, h5⟩
      · subst hieq
        rw [ih2 _ (by simp)] at habs
        rcases pass2step_cases (Word.count a) g ⟨m, h5⟩ st with ⟨hC, heq⟩ | ⟨hC, hZ, heq⟩ |
          ⟨hC, hZ, heq⟩
        · rw [heq] at habs
          rw [habs] at hC
          exact LetterOutcome.noConfusion hC
        · constructor
          · intro hh
            exact hC ((hc _).mpr hh)
          · have hlt := corr_add_pres_lt a g st.2 ⟨m, h5⟩ hc hC hnp
            have := hacc (g ⟨m, h5⟩)
            omega
        · rw [heq] at habs
          have : Function.update st.2 ⟨m, h5⟩ LetterOutcome.Present ⟨m, h5⟩ =
            LetterOutcome.Absent := habs
          rw [Function.update_same] at this
          exact absurd this (by simp)
      · have hne : i.val ≠ m := fun hh => hieq (Fin.ext hh)
        exact ih3 i (by omega) habs
    · intro i hi habs hfirst
      by_cases hieq : i = ⟨m, h5⟩
      · subst hieq
        rw [ih2 _ (by simp)] at habs
        rcases pass2step_cases (Word.count a) g ⟨m, h5⟩ st with ⟨hC, heq⟩ | ⟨hC, hZ, heq⟩ |
          ⟨hC, hZ, heq⟩
        · rw [heq] at habs
          rw [habs] at hC
          exact LetterOutcome.noConfusion hC
        · have hzero : presCnt g st.2 (g ⟨m, h5⟩) = 0 :=
            presCnt_eq_zero_of_no_earlier g st.2 (g ⟨m, h5⟩) m hb hfirst
          have hcorr : firstPassCount a g (g ⟨m, h5⟩) ≤ Word.count a (g ⟨m, h5⟩) :=
            firstPassCount_le a g (g ⟨m, h5⟩)
          have := hacc (g ⟨m, h5⟩)
          omega
        · rw [heq] at habs
          have : Function.update st.2 ⟨m, h5⟩ LetterOutcome.Present ⟨m, h5⟩ =
            LetterOutcome.Absent := habs
          rw [Function.update_same] at this
          exact absurd this (by simp)
      · have hne : i.val ≠ m := fun hh => hieq (Fin.ext hh)
        exact ih4 i (by omega) habs hfirst

/-! ### Facts about the evaluator -/

theorem pass2go_inv (a g : Word) (r : Nat) :
    ∀ (m : Nat) (st : (Letter → Nat) × GuessOutcome), m + r ≤ 5 → PassInv a g m st →
      PassInv a g (m + r) (pass2go (Word.count a) g r m st) := by
  induction r with
  | zero =>
    intro m st _ hinv
    simpa [pass2go] using hinv
  | succ r ih =>
    intro m st hm hinv
    have h5 : m < 5 := by omega
    rw [pass2go, dif_pos h5]
    have hrec := ih (m + 1) (pass2step (Word.count a) g ⟨m, h5⟩ st) (by omega)
      (pass2step_inv a g m h5 st hinv)
    have heqX : m + (r + 1) = m + 1 + r := by omega
    rw [heqX]
    exact hrec

theorem evaluate_correct_iff (a g : Word) (i : Fin 5) :
    evaluate a g i = .Correct ↔ g i = a i :=
  ((pass2go_master a g 5 0 (firstPassCount a g, firstPassResult a g) rfl
    (PassInv_init a g)).1).1 i

theorem evaluate_absent_facts (a g : Word) (i : Fin 5) (h : evaluate a g i = .Absent) :
    g i ≠ a i ∧ Word.count a (g i) < Word.count g (g i) :=
  (pass2go_master a g 5 0 (firstPassCount a g, firstPassResult a g) rfl
    (PassInv_init a g)).2.2.1 i (Nat.zero_le _) h

theorem evaluate_absent_first (a g : Word) (i : Fin 5) (habs : evaluate a g i = .Absent)
    (hfirst : ∀ p : Fin 5, p.val < i.val → g p ≠ g i) :
    Word.count a (g i) = firstPassCount a g (g i) :=
  (pass2go_master a g 5 0 (firstPassCount a g, firstPassResult a g) rfl
    (PassInv_init a g)).2.2.2 i (Nat.zero_le _) habs hfirst

theorem evaluate_present_mem (a g : Word) (i : Fin 5) (hp : evaluate a g i = .Present) :
    ∃ p : Fin 5, a p = g i := by
  obtain ⟨hc, hb, hacc, hle⟩ :=
    (pass2go_master a g 5 0 (firstPassCount a g, firstPassResult a g) rfl (PassInv_init a g)).1
  have h1 : 0 <
      presCnt g (pass2go (Word.count a) g 5 0 (firstPassCount a g, firstPassResult a g)).2 (g i) :=
    Finset.card_pos.mpr ⟨i, Finset.mem_filter.mpr ⟨Finset.mem_univ i, hp, rfl⟩⟩
  have h2 := hacc (g i)
  have h3 := hle (g i)
  have h4 : 0 < Word.count a (g i) := by omega
  rw [Word.count_pos_iff] at h4
  exact h4

theorem presCnt_evaluate_le (a g : Word) (L : Letter) :
    firstPassCount a g L + presCnt g (evaluate a g) L ≤ Word.count a L := by
  obtain ⟨hc, hb, hacc, hle⟩ :=
    (pass2go_master a g 5 0 (firstPassCount a g, firstPassResult a g) rfl (PassInv_init a g)).1
  have h2 := hle L
  rw [hacc L] at h2
  exact h2

theorem evaluate_budget (a g : Word) (L : Letter) :
    (Finset.univ.filter (fun i => evaluate a g i = .Correct ∧ g i = L)).card +
      (Finset.univ.filter (fun i => evaluate a g i = .Present ∧ g i = L)).card ≤
      Word.count a L := by
  have h := presCnt_evaluate_le a g L
  have hcorr : (Finset.univ.filter (fun i => evaluate a g i = .Correct ∧ g i = L)) =
      (Finset.univ.filter (fun i : Fin 5 => g i = a i ∧ g i = L)) := by
    apply Finset.filter_congr
    intro x _
    rw [evaluate_correct_iff a g x]
  rw [hcorr]
  exact h

/-- The second pass's running per-letter count never exceeds the answer's count
for that letter: the `u8` subtraction `count_in_answer[j] - correct_count_in_guess[j]`
never underflows. -/
theorem pass2_acc_le (a g : Word) (k : Nat) (hk : k ≤ 5) (L : Letter) :
    (pass2go (Word.count a) g k 0 (firstPassCount a g, firstPassResult a g)).1 L ≤
      Word.count a L := by
  have h := pass2go_inv a g k 0 (firstPassCount a g, firstPassResult a g) (by omega)
    (PassInv_init a g)
  exact h.2.2.2 L

theorem pass2go_all_correct (ca : Letter → Nat) (g : Word) (r : Nat) :
    ∀ (m : Nat) (st : (Letter → Nat) × GuessOutcome), (∀ i, st.2 i = .Correct) →
      pass2go ca g r m st = st := by
  induction r with
  | zero => intro m st _; rw [pass2go]
  | succ r ih =>
    intro m st h
    rw [pass2go]
    split_ifs with h5
    · have hstep : pass2step ca g ⟨m, h5⟩ st = st := by
        unfold pass2step
        rw [if_pos (h _)]
      rw [hstep]
      exact ih (m + 1) st h
    · rfl

theorem evaluate_self (a : Word) : evaluate a a = allCorrect := by
  unfold evaluate evalGuess
  have hc : ∀ i, (firstPassCount a a, firstPassResult a a).2 i = .Correct := by
    intro i
    show firstPassResult a a i = _
    unfold firstPassResult
    rw [if_pos rfl]
  rw [pass2go_all_correct (Word.count a) a 5 0 _ hc]
  funext i
  show firstPassResult a a i = .Correct
  unfold firstPassResult
  rw [if_pos rfl]

theorem evaluate_absent_first_all (a g : Word) (i : Fin 5) (habs : evaluate a g i = .Absent)
    (hfirst : ∀ p : Fin 5, p.val < i.val → g p ≠ g i) :
    (∀ p : Fin 5, a p = g i → g p = g i ∧ evaluate a g p = .Correct) ∧
    (∀ p : Fin 5, g p = g i → evaluate a g p ≠ .Present) := by
  have hEq := evaluate_absent_first a g i habs hfirst
  have hsub : (Finset.univ.filter (fun p => g p = a p ∧ g p = g i)) ⊆
      (Finset.univ.filter (fun p : Fin 5 => a p = g i)) := by
    intro q hq
    simp only [Finset.mem_filter, Finset.mem_univ, true_and] at hq ⊢
    rw [← hq.2, hq.1]
  have hcard : (Finset.univ.filter (fun p : Fin 5 => a p = g i)).card ≤
      (Finset.univ.filter (fun p => g p = a p ∧ g p = g i)).card := by
    have h1 : (Finset.univ.filter (fun p : Fin 5 => a p = g i)).card = Word.count a (g i) := rfl
    have h2 : (Finset.univ.filter (fun p => g p = a p ∧ g p = g i)).card =
        firstPassCount a g (g i) := rfl
    omega
  have hTS := Finset.eq_of_subset_of_card_le hsub hcard
  constructor
  · intro p hap
    have hpT : p ∈ Finset.univ.filter (fun p : Fin 5 => a p = g i) := by
      simp [hap]
    rw [← hTS] at hpT
    simp only [Finset.mem_filter, Finset.mem_univ, true_and] at hpT
    exact ⟨hpT.2, (evaluate_correct_iff a g p).mpr hpT.1⟩
  · intro p hgp hPres
    have hb := presCnt_evaluate_le a g (g i)
    rw [hEq] at hb
    have hpos : 0 < presCnt g (evaluate a g) (g i) :=
      Finset.card_pos.mpr ⟨p, by simp [presCnt, hPres, hgp]⟩
    unfold presCnt at hpos hb
    omega

/-! ### The round-trip invariant of the update loop (C1) -/

/-- No position before `m` in the guess holds letter `L`. -/
def NoOwn (g : Word) (m : Nat) (L : Letter) : Prop :=
  ∀ p : Fin 5, p.val < m → g p ≠ L

/-- What the update loop knows about one letter after processing positions
`0..m-1` of the true outcome, stated so that the answer is never excluded:
`Positions`/`AntiPositions` never block an answer position (except transiently
at a position that will still be confirmed `Correct`), and a transient
`Absent` state only occurs when every answer position of the letter is a
`Correct` position still to be processed. -/
def JEntry (a g : Word) (o : GuessOutcome) (m : Nat) (L : Letter) (s : LetterState) : Prop :=
  (s = .Unknown → NoOwn g m L) ∧
  (∀ ps, s = .AntiPositions ps → (∀ p : Fin 5, a p = L → ps p ≠ .Yes) ∧ NoOwn g m L) ∧
  (∀ ps, s = .Positions ps → (∃ q : Fin 5, a q = L) ∧
    (∀ p : Fin 5, a p = L → ps p ≠ .No ∨ (g p = L ∧ m ≤ p.val))) ∧
  (s = .Absent → (∀ p : Fin 5, a p = L → g p = L ∧ m ≤ p.val) ∧
    (∀ p : Fin 5, g p = L → o p ≠ .Present))

def JInv (a g : Word) (o : GuessOutcome) (m : Nat) (ls : Letter → LetterState) : Prop :=
  ∀ L : Letter, JEntry a g o m L (ls L)

theorem NoOwn_succ (g : Word) (m : Nat) (h5 : m < 5) (K : Letter) (h : NoOwn g m K)
    (hK : g ⟨m, h5⟩ ≠ K) : NoOwn g (m + 1) K := by
  intro p hp
  by_cases hpm : p.val = m
  · have hpe : p = ⟨m, h5⟩ := Fin.ext hpm
    rw [hpe]
    exact hK
  · exact h p (by omega)

theorem JEntry_shift (a g : Word) (o : GuessOutcome) (m : Nat) (h5 : m < 5) (K : Letter)
    (s : LetterState) (hK : g ⟨m, h5⟩ ≠ K) (h : JEntry a g o m K s) :
    JEntry a g o (m + 1) K s := by
  obtain ⟨hU, hA, hP, hAb⟩ := h
  refine ⟨?_, ?_, ?_, ?_⟩
  · intro hs
    exact NoOwn_succ g m h5 K (hU hs) hK
  · intro ps hps
    exact ⟨(hA ps hps).1, NoOwn_succ g m h5 K (hA ps hps).2 hK⟩
  · intro ps hps
    refine ⟨(hP ps hps).1, ?_⟩
    intro p hap
    rcases (hP ps hps).2 p hap with h | ⟨hgp, hm⟩
    · exact Or.inl h
    · refine Or.inr ⟨hgp, ?_⟩
      have hpm : p.val ≠ m := by
        intro hh
        have hp : p = ⟨m, h5⟩ := Fin.ext hh
        rw [hp] at hgp
        exact hK hgp
      omega
  · intro hs
    refine ⟨?_, (hAb hs).2⟩
    intro p hap
    obtain ⟨hgp, hm⟩ := (hAb hs).1 p hap
    refine ⟨hgp, ?_⟩
    have hpm : p.val ≠ m := by
      intro hh
      have hp : p = ⟨m, h5⟩ := Fin.ext hh
      rw [hp] at hgp
      exact hK hgp
    omega

theorem JEntry_correctOther (a g : Word) (o : GuessOutcome) (m : Nat) (h5 : m < 5) (K : Letter)
    (s : LetterState) (hK : g ⟨m, h5⟩ ≠ K) (haK : a ⟨m, h5⟩ ≠ K)
    (h : JEntry a g o m K s) : JEntry a g o (m + 1) K (correctOther ⟨m, h5⟩ s) := by
  obtain ⟨hU, hA, hP, hAb⟩ := h
  cases s with
  | Absent =>
    refine ⟨by simp [correctOther], by simp [correctOther], by simp [correctOther], ?_⟩
    intro _
    refine ⟨?_, (hAb rfl).2⟩
    intro p hap
    obtain ⟨hgp, hm⟩ := (hAb rfl).1 p hap
    refine ⟨hgp, ?_⟩
    have hpm : p.val ≠ m := by
      intro hh
      have hp : p = ⟨m, h5⟩ := Fin.ext hh
      rw [hp] at hap
      exact haK hap
    omega
  | Unknown =>
    refine ⟨by simp [correctOther], ?_, by simp [correctOther], by simp [correctOther]⟩
    intro ps hps
    simp only [correctOther] at hps
    injection hps with hps
    subst hps
    refine ⟨?_, NoOwn_succ g m h5 K (hU rfl) hK⟩
    intro p hap
    by_cases hpm : p = ⟨m, h5⟩
    · rw [hpm] at hap
      exact absurd hap haK
    · rw [Function.update_noteq hpm]
      simp
  | AntiPositions ps0 =>
    refine ⟨by simp [correctOther], ?_, by simp [correctOther], by simp [correctOther]⟩
    intro ps hps
    simp only [correctOther] at hps
    injection hps with hps
    subst hps
    obtain ⟨h1, h2⟩ := hA ps0 rfl
    refine ⟨?_, NoOwn_succ g m h5 K h2 hK⟩
    intro p hap
    by_cases hpm : p = ⟨m, h5⟩
    · rw [hpm] at hap
      exact absurd hap haK
    · rw [Function.update_noteq hpm]
      exact h1 p hap
  | Positions ps0 =>
    refine ⟨by simp [correctOther], by simp [correctOther], ?_, by simp [correctOther]⟩
    intro ps hps
    simp only [correctOther] at hps
    injection hps with hps
    subst hps
    obtain ⟨hex, h1⟩ := hP ps0 rfl
    refine ⟨hex, ?_⟩
    intro p hap
    by_cases hpm : p = ⟨m, h5⟩
    · rw [hpm] at hap
      exact absurd hap haK
    · rw [Function.update_noteq hpm]
      rcases h1 p hap with h | ⟨hgp, hm⟩
      · exact Or.inl h
      · refine Or.inr ⟨hgp, ?_⟩
        have hvm : p.val ≠ m := fun hh => hpm (Fin.ext hh)
        omega

theorem PositionState.not_ne_no {s : PositionState} (h : s ≠ .Yes) :
    PositionState.not s ≠ .No := by
  cases s
  · exact absurd rfl h
  · simp [PositionState.not]
  · simp [PositionState.not]

theorem evaluate_present_ne (a g : Word) (i : Fin 5) (ho : evaluate a g i = .Present) :
    g i ≠ a i := by
  intro hh
  have hc := (evaluate_correct_iff a g i).mpr hh
  rw [ho] at hc
  exact LetterOutcome.noConfusion hc

theorem updateAt_J (a g : Word) (m : Nat) (h5 : m < 5) (st : UpdState)
    (hJ : JInv a g (evaluate a g) m st.ls) :
    ∃ st', updateAt g (evaluate a g) ⟨m, h5⟩ st = some st' ∧
      JInv a g (evaluate a g) (m + 1) st'.ls ∧
      (a ∈ st.dict → a ∈ st'.dict) := by
  cases ho : evaluate a g ⟨m, h5⟩ with
  | Absent =>
    simp only [updateAt, ho]
    cases hsl : st.ls (g ⟨m, h5⟩) with
    | Unknown =>
      refine ⟨_, rfl, ?_, fun h => h⟩
      intro K
      show JEntry a g (evaluate a g) (m + 1) K
        (Function.update st.ls (g ⟨m, h5⟩) LetterState.Absent K)
      by_cases hK : K = g ⟨m, h5⟩
      · rw [hK, Function.update_same]
        refine ⟨by simp, by simp, by simp, ?_⟩
        intro _
        have hNoOwn : NoOwn g m (g ⟨m, h5⟩) := (hJ (g ⟨m, h5⟩)).1 hsl
        obtain ⟨hall, hnopres⟩ := evaluate_absent_first_all a g ⟨m, h5⟩ ho hNoOwn
        refine ⟨?_, hnopres⟩
        intro p hap
        obtain ⟨hgp, hc⟩ := hall p hap
        refine ⟨hgp, ?_⟩
        have h1 : ¬ p.val < m := fun hlt => hNoOwn p hlt hgp
        have h2 : p.val ≠ m := by
          intro hh
          have hp : p = ⟨m, h5⟩ := Fin.ext hh
          rw [hp, ho] at hc
          exact LetterOutcome.noConfusion hc
        omega
      · rw [Function.update_noteq hK]
        exact JEntry_shift a g _ m h5 K _ (fun hh => hK hh.symm) (hJ K)
    | AntiPositions ps =>
      refine ⟨_, rfl, ?_, fun h => h⟩
      intro K
      show JEntry a g (evaluate a g) (m + 1) K
        (Function.update st.ls (g ⟨m, h5⟩) LetterState.Absent K)
      by_cases hK : K = g ⟨m, h5⟩
      · rw [hK, Function.update_same]
        refine ⟨by simp, by simp, by simp, ?_⟩
        intro _
        have hNoOwn : NoOwn g m (g ⟨m, h5⟩) := ((hJ (g ⟨m, h5⟩)).2.1 ps hsl).2
        obtain ⟨hall, hnopres⟩ := evaluate_absent_first_all a g ⟨m, h5⟩ ho hNoOwn
        refine ⟨?_, hnopres⟩
        intro p hap
        obtain ⟨hgp, hc⟩ := hall p hap
        refine ⟨hgp, ?_⟩
        have h1 : ¬ p.val < m := fun hlt => hNoOwn p hlt hgp
        have h2 : p.val ≠ m := by
          intro hh
          have hp : p = ⟨m, h5⟩ := Fin.ext hh
          rw [hp, ho] at hc
          exact LetterOutcome.noConfusion hc
        omega
      · rw [Function.update_noteq hK]
        exact JEntry_shift a g _ m h5 K _ (fun hh => hK hh.symm) (hJ K)
    | Positions ps =>
      refine ⟨_, rfl, ?_, ?_⟩
      · intro K
        by_cases hK : K = g ⟨m, h5⟩
        · show JEntry a g (evaluate a g) (m + 1) K
            (Function.update st.ls (g ⟨m, h5⟩) (.Positions (Function.update ps ⟨m, h5⟩ .No)) K)
          rw [hK, Function.update_same]
          refine ⟨by simp, by simp, ?_, by simp⟩
          intro ps' hps'
          injection hps' with hps'
          subst hps'
          obtain ⟨hex, hblock⟩ := (hJ (g ⟨m, h5⟩)).2.2.1 ps hsl
          refine ⟨hex, ?_⟩
          intro p hap
          by_cases hpm : p = ⟨m, h5⟩
          · have hne := (evaluate_absent_facts a g ⟨m, h5⟩ ho).1
            rw [hpm] at hap
            exact absurd hap.symm hne
          · rw [Function.update_noteq hpm]
            rcases hblock p hap with h | ⟨hgp, hm⟩
            · exact Or.inl h
            · refine Or.inr ⟨hgp, ?_⟩
              have hvm : p.val ≠ m := fun hh => hpm (Fin.ext hh)
              omega
        · show JEntry a g (evaluate a g) (m + 1) K
            (Function.update st.ls (g ⟨m, h5⟩) (.Positions (Function.update ps ⟨m, h5⟩ .No)) K)
          rw [Function.update_noteq hK]
          exact JEntry_shift a g _ m h5 K _ (fun hh => hK hh.symm) (hJ K)
      · intro ha
        show a ∈ st.dict.filter (fun w => Word.count w (g ⟨m, h5⟩) < Word.count g (g ⟨m, h5⟩))
        rw [List.mem_filter]
        refine ⟨ha, ?_⟩
        simp only [decide_eq_true_eq]
        exact (evaluate_absent_facts a g ⟨m, h5⟩ ho).2
    | Absent =>
      refine ⟨st, rfl, ?_, fun h => h⟩
      intro K
      by_cases hK : K = g ⟨m, h5⟩
      · rw [hK, hsl]
        refine ⟨by simp, by simp, by simp, ?_⟩
        intro _
        obtain ⟨h1, h2⟩ := (hJ (g ⟨m, h5⟩)).2.2.2 hsl
        refine ⟨?_, h2⟩
        intro p hap
        obtain ⟨hgp, hm⟩ := h1 p hap
        refine ⟨hgp, ?_⟩
        have hpm : p.val ≠ m := by
          intro hh
          have hp : p = ⟨m, h5⟩ := Fin.ext hh
          rw [hp] at hap
          exact (evaluate_absent_facts a g ⟨m, h5⟩ ho).1 hap.symm
        omega
      · exact JEntry_shift a g _ m h5 K _ (fun hh => hK hh.symm) (hJ K)
  | Present =>
    simp only [updateAt, ho]
    cases hsl : st.ls (g ⟨m, h5⟩) with
    | Unknown =>
      refine ⟨_, rfl, ?_, fun h => h⟩
      intro K
      show JEntry a g (evaluate a g) (m + 1) K
        (Function.update st.ls (g ⟨m, h5⟩)
          (LetterState.Positions (Function.update (fun _ => PositionState.Maybe) ⟨m, h5⟩
            PositionState.No)) K)
      by_cases hK : K = g ⟨m, h5⟩
      · rw [hK, Function.update_same]
        refine ⟨by simp, by simp, ?_, by simp⟩
        intro ps' hps'
        injection hps' with hps'
        subst hps'
        refine ⟨evaluate_present_mem a g ⟨m, h5⟩ ho, ?_⟩
        intro p hap
        by_cases hpm : p = ⟨m, h5⟩
        · have hne := evaluate_present_ne a g ⟨m, h5⟩ ho
          rw [hpm] at hap
          exact absurd hap.symm hne
        · rw [Function.update_noteq hpm]
          simp
      · rw [Function.update_noteq hK]
        exact JEntry_shift a g _ m h5 K _ (fun hh => hK hh.symm) (hJ K)
    | Positions ps =>
      refine ⟨_, rfl, ?_, fun h => h⟩
      intro K
      show JEntry a g (evaluate a g) (m + 1) K
        (Function.update st.ls (g ⟨m, h5⟩)
          (LetterState.Positions (Function.update ps ⟨m, h5⟩ PositionState.No)) K)
      by_cases hK : K = g ⟨m, h5⟩
      · rw [hK, Function.update_same]
        refine ⟨by simp, by simp, ?_, by simp⟩
        intro ps' hps'
        injection hps' with hps'
        subst hps'
        obtain ⟨hex, hblock⟩ := (hJ (g ⟨m, h5⟩)).2.2.1 ps hsl
        refine ⟨hex, ?_⟩
        intro p hap
        by_cases hpm : p = ⟨m, h5⟩
        · have hne := evaluate_present_ne a g ⟨m, h5⟩ ho
          rw [hpm] at hap
          exact absurd hap.symm hne
        · rw [Function.update_noteq hpm]
          rcases hblock p hap with h | ⟨hgp, hm⟩
          · exact Or.inl h
          · refine Or.inr ⟨hgp, ?_⟩
            have hvm : p.val ≠ m := fun hh => hpm (Fin.ext hh)
            omega
      · rw [Function.update_noteq hK]
        exact JEntry_shift a g _ m h5 K _ (fun hh => hK hh.symm) (hJ K)
    | AntiPositions ps =>
      refine ⟨_, rfl, ?_, fun h => h⟩
      intro K
      show JEntry a g (evaluate a g) (m + 1) K
        (Function.update st.ls (g ⟨m, h5⟩)
          (LetterState.Positions (Function.update (fun k => (ps k).not) ⟨m, h5⟩
            PositionState.No)) K)
      by_cases hK : K = g ⟨m, h5⟩
      · rw [hK, Function.update_same]
        refine ⟨by simp, by simp, ?_, by simp⟩
        intro ps' hps'
        injection hps' with hps'
        subst hps'
        obtain ⟨hanti, _⟩ := (hJ (g ⟨m, h5⟩)).2.1 ps hsl
        refine ⟨evaluate_present_mem a g ⟨m, h5⟩ ho, ?_⟩
        intro p hap
        by_cases hpm : p = ⟨m, h5⟩
        · have hne := evaluate_present_ne a g ⟨m, h5⟩ ho
          rw [hpm] at hap
          exact absurd hap.symm hne
        · rw [Function.update_noteq hpm]
          exact Or.inl (PositionState.not_ne_no (hanti p hap))
      · rw [Function.update_noteq hK]
        exact JEntry_shift a g _ m h5 K _ (fun hh => hK hh.symm) (hJ K)
    | Absent =>
      obtain ⟨_, h2⟩ := (hJ (g ⟨m, h5⟩)).2.2.2 hsl
      exact absurd ho (h2 ⟨m, h5⟩ rfl)
  | Correct =>
    have hai : g ⟨m, h5⟩ = a ⟨m, h5⟩ := (evaluate_correct_iff a g ⟨m, h5⟩).mp ho
    simp only [updateAt, ho]
    refine ⟨_, rfl, ?_, fun h => h⟩
    intro K
    show JEntry a g (evaluate a g) (m + 1) K
      (if K = g ⟨m, h5⟩ then correctOwn ⟨m, h5⟩ (st.ls (g ⟨m, h5⟩))
        else correctOther ⟨m, h5⟩ (st.ls K))
    by_cases hK : K = g ⟨m, h5⟩
    · rw [if_pos hK]
      subst hK
      cases hsl : st.ls (g ⟨m, h5⟩) with
      | Unknown =>
        refine ⟨by simp [correctOwn], by simp [correctOwn], ?_, by simp [correctOwn]⟩
        intro ps' hps'
        simp only [correctOwn] at hps'
        injection hps' with hps'
        subst hps'
        refine ⟨⟨⟨m, h5⟩, hai.symm⟩, ?_⟩
        intro p hap
        by_cases hpm : p = ⟨m, h5⟩
        · rw [hpm, Function.update_same]
          exact Or.inl (by simp)
        · rw [Function.update_noteq hpm]
          exact Or.inl (by simp)
      | Positions ps =>
        refine ⟨by simp [correctOwn], by simp [correctOwn], ?_, by simp [correctOwn]⟩
        intro ps' hps'
        simp only [correctOwn] at hps'
        injection hps' with hps'
        subst hps'
        obtain ⟨hex, hblock⟩ := (hJ (g ⟨m, h5⟩)).2.2.1 ps hsl
        refine ⟨hex, ?_⟩
        intro p hap
        by_cases hpm : p = ⟨m, h5⟩
        · rw [hpm, Function.update_same]
          exact Or.inl (by simp)
        · rw [Function.update_noteq hpm]
          rcases hblock p hap with h | ⟨hgp, hm⟩
          · exact Or.inl h
          · refine Or.inr ⟨hgp, ?_⟩
            have hvm : p.val ≠ m := fun hh => hpm (Fin.ext hh)
            omega
      | AntiPositions ps =>
        refine ⟨by simp [correctOwn], by simp [correctOwn], ?_, by simp [correctOwn]⟩
        intro ps' hps'
        simp only [correctOwn] at hps'
        injection hps' with hps'
        subst hps'
        obtain ⟨hanti, _⟩ := (hJ (g ⟨m, h5⟩)).2.1 ps hsl
        refine ⟨⟨⟨m, h5⟩, hai.symm⟩, ?_⟩
        intro p hap
        by_cases hpm : p = ⟨m, h5⟩
        · rw [hpm, Function.update_same]
          exact Or.inl (by simp)
        · rw [Function.update_noteq hpm]
          exact Or.inl (PositionState.not_ne_no (hanti p hap))
      | Absent =>
        refine ⟨by simp [correctOwn], by simp [correctOwn], ?_, by simp [correctOwn]⟩
        intro ps' hps'
        simp only [correctOwn] at hps'
        injection hps' with hps'
        subst hps'
        obtain ⟨h1, _⟩ := (hJ (g ⟨m, h5⟩)).2.2.2 hsl
        refine ⟨⟨⟨m, h5⟩, hai.symm⟩, ?_⟩
        intro p hap
        by_cases hpm : p = ⟨m, h5⟩
        · rw [hpm, Function.update_same]
          exact Or.inl (by simp)
        · rw [Function.update_noteq hpm]
          obtain ⟨hgp, hm⟩ := h1 p hap
          refine Or.inr ⟨hgp, ?_⟩
          have hvm : p.val ≠ m := fun hh => hpm (Fin.ext hh)
          omega
    · rw [if_neg hK]
      have hgK : g ⟨m, h5⟩ ≠ K := fun hh => hK hh.symm
      have haK : a ⟨m, h5⟩ ≠ K := fun hh => hK (hai.trans hh).symm
      exact JEntry_correctOther a g _ m h5 K _ hgK haK (hJ K)

theorem updateGo_J (a g : Word) (r : Nat) :
    ∀ (m : Nat) (st : UpdState), m + r = 5 → JInv a g (evaluate a g) m st.ls →
      ∃ st', updateGo g (evaluate a g) r m st = some st' ∧
        JInv a g (evaluate a g) 5 st'.ls ∧ (a ∈ st.dict → a ∈ st'.dict) := by
  induction r with
  | zero =>
    intro m st hm hJ
    have hm5 : m = 5 := by omega
    subst hm5
    exact ⟨st, rfl, hJ, fun h => h⟩
  | succ r ih =>
    intro m st hm hJ
    have h5 : m < 5 := by omega
    obtain ⟨st1, hst1, hJ1, hdict1⟩ := updateAt_J a g m h5 st hJ
    obtain ⟨st', hgo, hJ', hdict'⟩ := ih (m + 1) st1 (by omega) hJ1
    refine ⟨st', ?_, hJ', fun ha => hdict' (hdict1 ha)⟩
    rw [updateGo, dif_pos h5, hst1]
    exact hgo

theorem satisfies_JInv (a g : Word) (ls : Letter → LetterState)
    (hs : satisfies a ls = true) : JInv a g (evaluate a g) 0 ls := by
  rw [satisfies_iff_spec] at hs
  obtain ⟨h1, h2⟩ := hs
  intro L
  refine ⟨?_, ?_, ?_, ?_⟩
  · intro _ p hp
    exact absurd hp (by omega)
  · intro ps hps
    refine ⟨?_, ?_⟩
    · intro p hap
      exact (h1 p).2.2 ps (by rw [hap]; exact hps)
    · intro p hp
      exact absurd hp (by omega)
  · intro ps hps
    constructor
    · exact h2 L ⟨ps, hps⟩
    · intro p hap
      exact Or.inl ((h1 p).2.1 ps (by rw [hap]; exact hps))
  · intro habs
    constructor
    · intro p hap
      exact absurd (by rw [hap]; exact habs) (h1 p).1
    · intro p hgp hPres
      obtain ⟨q, hq⟩ := evaluate_present_mem a g p hPres
      rw [hgp] at hq
      exact absurd (by rw [hq]; exact habs) (h1 q).1

theorem JInv_satisfies (a g : Word) (o : GuessOutcome) (ls : Letter → LetterState)
    (hJ : JInv a g o 5 ls) : satisfies a ls = true := by
  rw [satisfies_iff_spec]
  constructor
  · intro i
    obtain ⟨hU, hAnti, hPos, hAbs⟩ := hJ (a i)
    refine ⟨?_, ?_, ?_⟩
    · intro habs
      have hge := ((hAbs habs).1 i rfl).2
      have hlt := i.isLt
      omega
    · intro ps hps hNo
      rcases (hPos ps hps).2 i rfl with h | ⟨_, hge⟩
      · exact h hNo
      · have := i.isLt
        omega
    · intro ps hps
      exact (hAnti ps hps).1 i rfl
  · rintro j ⟨ps, hps⟩
    exact ((hJ j).2.2.1 ps hps).1

/-- C1: feeding the true outcome `evaluate a g` into the update loop starting
from any letters-state consistent with the answer `a` succeeds, yields a
letters-state that still accepts `a`, and never prunes `a` from the candidate
dictionary (including the multiplicity-based pruning of the
`Absent`-on-`Positions` branch). -/
theorem roundtrip_never_prunes_answer (a g : Word) (s : Letter → LetterState) (d : List Word)
    (hs : satisfies a s = true) :
    ∃ st' : UpdState, updateState g (evaluate a g) ⟨s, d⟩ = some st' ∧
      satisfies a st'.ls = true ∧ (a ∈ d → a ∈ st'.dict) := by
  obtain ⟨st', h1, h2, h3⟩ := updateGo_J a g 5 0 ⟨s, d⟩ rfl (satisfies_JInv a g s hs)
  exact ⟨st', h1, JInv_satisfies a g (evaluate a g) st'.ls h2, h3⟩

/-! ### Idempotence of the update loop at the predicate level (C7) -/

theorem updateAt_ls_cases (g : Word) (o : GuessOutcome) (i : Fin 5) (st st' : UpdState)
    (h : updateAt g o i st = some st') (L : Letter) :
    st'.ls L = st.ls L ∨
    (st.ls L = .Unknown ∧ st'.ls L = .Absent) ∨
    (st.ls L = .Unknown ∧ ∃ ps', st'.ls L = .Positions ps' ∧
      ∀ p : Fin 5, p ≠ i → ps' p = .Maybe) ∨
    (st.ls L = .Unknown ∧ ∃ ps', st'.ls L = .AntiPositions ps' ∧
      ∀ p : Fin 5, p ≠ i → ps' p = .Maybe) ∨
    (∃ ps ps', st.ls L = .Positions ps ∧ st'.ls L = .Positions ps' ∧
      ∀ p : Fin 5, p ≠ i → ps' p = ps p) ∨
    (∃ ps, st.ls L = .AntiPositions ps ∧ st'.ls L = .Absent) ∨
    (∃ ps ps', st.ls L = .AntiPositions ps ∧ st'.ls L = .AntiPositions ps' ∧
      ∀ p : Fin 5, p ≠ i → ps' p = ps p) ∨
    (∃ ps ps', st.ls L = .AntiPositions ps ∧ st'.ls L = .Positions ps' ∧
      ∀ p : Fin 5, p ≠ i → ps' p = (ps p).not) ∨
    (st.ls L = .Absent ∧ ∃ ps', st'.ls L = .Positions ps' ∧
      ∀ p : Fin 5, p ≠ i → ps' p = .No) := by
  cases ho : o i with
  | Correct =>
    simp only [updateAt, ho] at h
    have hst := Option.some.inj h
    have hls : st'.ls = fun k =>
        if k = g i then correctOwn i (st.ls (g i)) else correctOther i (st.ls k) :=
      (congrArg UpdState.ls hst).symm
    by_cases hL : L = g i
    · have hLval : st'.ls L = correctOwn i (st.ls (g i)) := by rw [hls]; simp [hL]
      cases hsl : st.ls (g i) with
      | Unknown =>
        refine Or.inr (Or.inr (Or.inl ⟨by rw [hL]; exact hsl, ?_⟩))
        refine ⟨Function.update (fun _ => .Maybe) i .Yes, ?_, ?_⟩
        · rw [hLval, hsl]
          rfl
        · intro p hp
          rw [Function.update_noteq hp]
      | Positions ps =>
        refine Or.inr (Or.inr (Or.inr (Or.inr (Or.inl ?_))))
        refine ⟨ps, Function.update ps i .Yes, by rw [hL]; exact hsl, ?_, ?_⟩
        · rw [hLval, hsl]
          rfl
        · intro p hp
          rw [Function.update_noteq hp]
      | AntiPositions ps =>
        refine Or.inr (Or.inr (Or.inr (Or.inr (Or.inr (Or.inr (Or.inr (Or.inl ?_)))))))
        refine ⟨ps, Function.update (fun k => (ps k).not) i .Yes, by rw [hL]; exact hsl, ?_, ?_⟩
        · rw [hLval, hsl]
          rfl
        · intro p hp
          rw [Function.update_noteq hp]
      | Absent =>
        refine Or.inr (Or.inr (Or.inr (Or.inr (Or.inr (Or.inr (Or.inr (Or.inr
          ⟨by rw [hL]; exact hsl, ?_⟩)))))))
        refine ⟨Function.update (fun _ => .No) i .Yes, ?_, ?_⟩
        · rw [hLval, hsl]
          rfl
        · intro p hp
          rw [Function.update_noteq hp]
    · have hLval : st'.ls L = correctOther i (st.ls L) := by rw [hls]; simp [hL]
      rcases hsl : st.ls L with _ | ps | ps | _
      · refine Or.inr (Or.inr (Or.inr (Or.inl ⟨rfl, ?_⟩)))
        refine ⟨Function.update (fun _ => .Maybe) i .Yes, ?_, ?_⟩
        · rw [hLval, hsl]
          rfl
        · intro p hp
          rw [Function.update_noteq hp]
      · refine Or.inr (Or.inr (Or.inr (Or.inr (Or.inl ?_))))
        refine ⟨ps, Function.update ps i .No, rfl, ?_, ?_⟩
        · rw [hLval, hsl]
          rfl
        · intro p hp
          rw [Function.update_noteq hp]
      · refine Or.inr (Or.inr (Or.inr (Or.inr (Or.inr (Or.inr (Or.inl ?_))))))
        refine ⟨ps, Function.update ps i .Yes, rfl, ?_, ?_⟩
        · rw [hLval, hsl]
          rfl
        · intro p hp
          rw [Function.update_noteq hp]
      · refine Or.inl ?_
        rw [hLval, hsl]
        rfl
  | Present =>
    cases hsl : st.ls (g i) with
    | Unknown =>
      simp only [updateAt, ho, hsl] at h
      have hst := Option.some.inj h
      have hls : st'.ls = Function.update st.ls (g i)
          (.Positions (Function.update (fun _ => .Maybe) i .No)) :=
        (congrArg UpdState.ls hst).symm
      by_cases hL : L = g i
      · refine Or.inr (Or.inr (Or.inl ⟨by rw [hL]; exact hsl, ?_⟩))
        refine ⟨Function.update (fun _ => .Maybe) i .No, ?_, ?_⟩
        · rw [hls, hL, Function.update_same]
        · intro p hp
          rw [Function.update_noteq hp]
      · refine Or.inl ?_
        rw [hls, Function.update_noteq hL]
    | Positions ps =>
      simp only [updateAt, ho, hsl] at h
      have hst := Option.some.inj h
      have hls : st'.ls = Function.update st.ls (g i)
          (.Positions (Function.update ps i .No)) :=
        (congrArg UpdState.ls hst).symm
      by_cases hL : L = g i
      · refine Or.inr (Or.inr (Or.inr (Or.inr (Or.inl ?_))))
        refine ⟨ps, Function.update ps i .No, by rw [hL]; exact hsl, ?_, ?_⟩
        · rw [hls, hL, Function.update_same]
        · intro p hp
          rw [Function.update_noteq hp]
      · refine Or.inl ?_
        rw [hls, Function.update_noteq hL]
    | AntiPositions ps =>
      simp only [updateAt, ho, hsl] at h
      have hst := Option.some.inj h
      have hls : st'.ls = Function.update st.ls (g i)
          (.Positions (Function.update (fun k => (ps k).not) i .No)) :=
        (congrArg UpdState.ls hst).symm
      by_cases hL : L = g i
      · refine Or.inr (Or.inr (Or.inr (Or.inr (Or.inr (Or.inr (Or.inr (Or.inl ?_)))))))
        refine ⟨ps, Function.update (fun k => (ps k).not) i .No, by rw [hL]; exact hsl, ?_, ?_⟩
        · rw [hls, hL, Function.update_same]
        · intro p hp
          rw [Function.update_noteq hp]
      · refine Or.inl ?_
        rw [hls, Function.update_noteq hL]
    | Absent =>
      simp only [updateAt, ho, hsl] at h
      exact Option.noConfusion h
  | Absent =>
    cases hsl : st.ls (g i) with
    | Unknown =>
      simp only [updateAt, ho, hsl] at h
      have hst := Option.some.inj h
      have hls : st'.ls = Function.update st.ls (g i) .Absent :=
        (congrArg UpdState.ls hst).symm
      by_cases hL : L = g i
      · refine Or.inr (Or.inl ⟨by rw [hL]; exact hsl, ?_⟩)
        rw [hls, hL, Function.update_same]
      · refine Or.inl ?_
        rw [hls, Function.update_noteq hL]
    | Positions ps =>
      simp only [updateAt, ho, hsl] at h
      have hst := Option.some.inj h
      have hls : st'.ls = Function.update st.ls (g i)
          (.Positions (Function.update ps i .No)) :=
        (congrArg UpdState.ls hst).symm
      by_cases hL : L = g i
      · refine Or.inr (Or.inr (Or.inr (Or.inr (Or.inl ?_))))
        refine ⟨ps, Function.update ps i .No, by rw [hL]; exact hsl, ?_, ?_⟩
        · rw [hls, hL, Function.update_same]
        · intro p hp
          rw [Function.update_noteq hp]
      · refine Or.inl ?_
        rw [hls, Function.update_noteq hL]
    | AntiPositions ps =>
      simp only [updateAt, ho, hsl] at h
      have hst := Option.some.inj h
      have hls : st'.ls = Function.update st.ls (g i) .Absent :=
        (congrArg UpdState.ls hst).symm
      by_cases hL : L = g i
      · refine Or.inr (Or.inr (Or.inr (Or.inr (Or.inr (Or.inl ⟨ps, by rw [hL]; exact hsl, ?_⟩)))))
        rw [hls, hL, Function.update_same]
      · refine Or.inl ?_
        rw [hls, Function.update_noteq hL]
    | Absent =>
      simp only [updateAt, ho, hsl] at h
      have hst := Option.some.inj h
      refine Or.inl ?_
      rw [← hst]

/-- After the update loop has processed position `m` of `(g, o)`, the
letters-state records the constraint of position `m` in a shape that makes the
position-`m` step of a second identical run a no-op. -/
def StableAt (g : Word) (o : GuessOutcome) (ls : Letter → LetterState) (m : Fin 5) : Prop :=
  (o m = .Absent → ls (g m) = .Absent ∨ ∃ ps, ls (g m) = .Positions ps ∧ ps m = .No) ∧
  (o m = .Present → ∃ ps, ls (g m) = .Positions ps ∧ ps m = .No) ∧
  (o m = .Correct → (∃ ps, ls (g m) = .Positions ps ∧ ps m = .Yes) ∧
    ∀ K, K ≠ g m → (ls K = .Absent ∨ (∃ ps, ls K = .AntiPositions ps ∧ ps m = .Yes) ∨
      (∃ ps, ls K = .Positions ps ∧ ps m = .No)))

theorem shape_pos_preserved (g : Word) (o : GuessOutcome) (i : Fin 5) (st st' : UpdState)
    (h : updateAt g o i st = some st') (L : Letter) (m' : Fin 5) (hne : m' ≠ i)
    (v : PositionState) (hold : ∃ ps, st.ls L = .Positions ps ∧ ps m' = v) :
    ∃ ps, st'.ls L = .Positions ps ∧ ps m' = v := by
  obtain ⟨ps, hps, hv⟩ := hold
  rcases updateAt_ls_cases g o i st st' h L with hc | ⟨hc, _⟩ | ⟨hc, _⟩ | ⟨hc, _⟩ |
    ⟨ps1, ps2, hc1, hc2, hc3⟩ | ⟨ps1, hc1, _⟩ | ⟨ps1, ps2, hc1, _, _⟩ |
    ⟨ps1, ps2, hc1, _, _⟩ | ⟨hc, _⟩
  · exact ⟨ps, by rw [hc]; exact hps, hv⟩
  · rw [hps] at hc; exact LetterState.noConfusion hc
  · rw [hps] at hc; exact LetterState.noConfusion hc
  · rw [hps] at hc; exact LetterState.noConfusion hc
  · rw [hps] at hc1
    injection hc1 with hc1
    subst hc1
    refine ⟨ps2, hc2, ?_⟩
    rw [hc3 m' hne, hv]
  · rw [hps] at hc1; exact LetterState.noConfusion hc1
  · rw [hps] at hc1; exact LetterState.noConfusion hc1
  · rw [hps] at hc1; exact LetterState.noConfusion hc1
  · rw [hps] at hc; exact LetterState.noConfusion hc

theorem shape_anti_preserved (g : Word) (o : GuessOutcome) (i : Fin 5) (st st' : UpdState)
    (h : updateAt g o i st = some st') (L : Letter) (m' : Fin 5) (hne : m' ≠ i)
    (hold : ∃ ps, st.ls L = .AntiPositions ps ∧ ps m' = .Yes) :
    st'.ls L = .Absent ∨ (∃ ps, st'.ls L = .AntiPositions ps ∧ ps m' = .Yes) ∨
      (∃ ps, st'.ls L = .Positions ps ∧ ps m' = .No) := by
  obtain ⟨ps, hps, hv⟩ := hold
  rcases updateAt_ls_cases g o i st st' h L with hc | ⟨hc, _⟩ | ⟨hc, _⟩ | ⟨hc, _⟩ |
    ⟨ps1, ps2, hc1, hc2, hc3⟩ | ⟨ps1, hc1, hc2⟩ | ⟨ps1, ps2, hc1, hc2, hc3⟩ |
    ⟨ps1, ps2, hc1, hc2, hc3⟩ | ⟨hc, _⟩
  · exact Or.inr (Or.inl ⟨ps, by rw [hc]; exact hps, hv⟩)
  · rw [hps] at hc; exact LetterState.noConfusion hc
  · rw [hps] at hc; exact LetterState.noConfusion hc
  · rw [hps] at hc; exact LetterState.noConfusion hc
  · rw [hps] at hc1; exact LetterState.noConfusion hc1
  · exact Or.inl hc2
  · rw [hps] at hc1
    injection hc1 with hc1
    subst hc1
    exact Or.inr (Or.inl ⟨ps2, hc2, by rw [hc3 m' hne, hv]⟩)
  · rw [hps] at hc1
    injection hc1 with hc1
    subst hc1
    refine Or.inr (Or.inr ⟨ps2, hc2, ?_⟩)
    rw [hc3 m' hne, hv]
    rfl
  · rw [hps] at hc; exact LetterState.noConfusion hc

theorem shape_absent_preserved (g : Word) (o : GuessOutcome) (i : Fin 5) (st st' : UpdState)
    (h : updateAt g o i st = some st') (L : Letter) (m' : Fin 5) (hne : m' ≠ i)
    (hold : st.ls L = .Absent) :
    st'.ls L = .Absent ∨ ∃ ps, st'.ls L = .Positions ps ∧ ps m' = .No := by
  rcases updateAt_ls_cases g o i st st' h L with hc | ⟨hc, _⟩ | ⟨hc, _⟩ | ⟨hc, _⟩ |
    ⟨ps1, ps2, hc1, hc2, hc3⟩ | ⟨ps1, hc1, _⟩ | ⟨ps1, ps2, hc1, _, _⟩ |
    ⟨ps1, ps2, hc1, _, _⟩ | ⟨hc, hc2⟩
  · exact Or.inl (by rw [hc]; exact hold)
  · rw [hold] at hc; exact LetterState.noConfusion hc
  · rw [hold] at hc; exact LetterState.noConfusion hc
  · rw [hold] at hc; exact LetterState.noConfusion hc
  · rw [hold] at hc1; exact LetterState.noConfusion hc1
  · rw [hold] at hc1; exact LetterState.noConfusion hc1
  · rw [hold] at hc1; exact LetterState.noConfusion hc1
  · rw [hold] at hc1; exact LetterState.noConfusion hc1
  · obtain ⟨ps2, hc3, hc4⟩ := hc2
    exact Or.inr ⟨ps2, hc3, hc4 m' hne⟩

theorem StableAt_preserved (g : Word) (o : GuessOutcome) (i : Fin 5) (st st' : UpdState)
    (h : updateAt g o i st = some st') (m' : Fin 5) (hne : m' ≠ i)
    (hs : StableAt g o st.ls m') : StableAt g o st'.ls m' := by
  obtain ⟨hA, hP, hC⟩ := hs
  refine ⟨?_, ?_, ?_⟩
  · intro ho
    rcases hA ho with hc | hc
    · exact (shape_absent_preserved g o i st st' h (g m') m' hne hc).imp id
        (fun hh => hh)
    · exact Or.inr (shape_pos_preserved g o i st st' h (g m') m' hne .No hc)
  · intro ho
    exact shape_pos_preserved g o i st st' h (g m') m' hne .No (hP ho)
  · intro ho
    obtain ⟨hown, hoth⟩ := hC ho
    refine ⟨shape_pos_preserved g o i st st' h (g m') m' hne .Yes hown, ?_⟩
    intro K hK
    rcases hoth K hK with hc | hc | hc
    · exact (shape_absent_preserved g o i st st' h K m' hne hc).imp id
        (fun hh => Or.inr hh)
    · exact shape_anti_preserved g o i st st' h K m' hne hc
    · exact Or.inr (Or.inr (shape_pos_preserved g o i st st' h K m' hne .No hc))

theorem StableAt_estab (g : Word) (o : GuessOutcome) (i : Fin 5) (st st' : UpdState)
    (h : updateAt g o i st = some st') : StableAt g o st'.ls i := by
  cases ho : o i with
  | Absent =>
    refine ⟨fun _ => ?_, fun hp => ?_, fun hp => ?_⟩
    · cases hsl : st.ls (g i) with
      | Unknown =>
        simp only [updateAt, ho, hsl] at h
        have hls : st'.ls = Function.update st.ls (g i) .Absent :=
          (congrArg UpdState.ls (Option.some.inj h)).symm
        exact Or.inl (by rw [hls, Function.update_same])
      | Positions ps =>
        simp only [updateAt, ho, hsl] at h
        have hls : st'.ls = Function.update st.ls (g i)
            (.Positions (Function.update ps i .No)) :=
          (congrArg UpdState.ls (Option.some.inj h)).symm
        refine Or.inr ⟨Function.update ps i .No, ?_, Function.update_same _ _ _⟩
        rw [hls, Function.update_same]
      | AntiPositions ps =>
        simp only [updateAt, ho, hsl] at h
        have hls : st'.ls = Function.update st.ls (g i) .Absent :=
          (congrArg UpdState.ls (Option.some.inj h)).symm
        exact Or.inl (by rw [hls, Function.update_same])
      | Absent =>
        simp only [updateAt, ho, hsl] at h
        have hst := Option.some.inj h
        exact Or.inl (by rw [← hst]; exact hsl)
    · rw [ho] at hp
      exact LetterOutcome.noConfusion hp
    · rw [ho] at hp
      exact LetterOutcome.noConfusion hp
  | Present =>
    refine ⟨fun hp => ?_, fun _ => ?_, fun hp => ?_⟩
    · rw [ho] at hp
      exact LetterOutcome.noConfusion hp
    · cases hsl : st.ls (g i) with
      | Unknown =>
        simp only [updateAt, ho, hsl] at h
        have hls : st'.ls = Function.update st.ls (g i)
            (.Positions (Function.update (fun _ => .Maybe) i .No)) :=
          (congrArg UpdState.ls (Option.some.inj h)).symm
        refine ⟨Function.update (fun _ => .Maybe) i .No, ?_, Function.update_same _ _ _⟩
        rw [hls, Function.update_same]
      | Positions ps =>
        simp only [updateAt, ho, hsl] at h
        have hls : st'.ls = Function.update st.ls (g i)
            (.Positions (Function.update ps i .No)) :=
          (congrArg UpdState.ls (Option.some.inj h)).symm
        refine ⟨Function.update ps i .No, ?_, Function.update_same _ _ _⟩
        rw [hls, Function.update_same]
      | AntiPositions ps =>
        simp only [updateAt, ho, hsl] at h
        have hls : st'.ls = Function.update st.ls (g i)
            (.Positions (Function.update (fun k => (ps k).not) i .No)) :=
          (congrArg UpdState.ls (Option.some.inj h)).symm
        refine ⟨Function.update (fun k => (ps k).not) i .No, ?_, Function.update_same _ _ _⟩
        rw [hls, Function.update_same]
      | Absent =>
        simp only [updateAt, ho, hsl] at h
        exact Option.noConfusion h
    · rw [ho] at hp
      exact LetterOutcome.noConfusion hp
  | Correct =>
    simp only [updateAt, ho] at h
    have hls : st'.ls = fun k =>
        if k = g i then correctOwn i (st.ls (g i)) else correctOther i (st.ls k) :=
      (congrArg UpdState.ls (Option.some.inj h)).symm
    have hown : st'.ls (g i) = correctOwn i (st.ls (g i)) := by rw [hls]; simp
    have hoth : ∀ K, K ≠ g i → st'.ls K = correctOther i (st.ls K) := by
      intro K hK
      rw [hls]
      simp [hK]
    refine ⟨fun hp => ?_, fun hp => ?_, fun _ => ⟨?_, ?_⟩⟩
    · rw [ho] at hp
      exact LetterOutcome.noConfusion hp
    · rw [ho] at hp
      exact LetterOutcome.noConfusion hp
    · cases hsl : st.ls (g i) with
      | Unknown =>
        refine ⟨Function.update (fun _ => .Maybe) i .Yes, ?_, Function.update_same _ _ _⟩
        rw [hown, hsl]
        rfl
      | Positions ps =>
        refine ⟨Function.update ps i .Yes, ?_, Function.update_same _ _ _⟩
        rw [hown, hsl]
        rfl
      | AntiPositions ps =>
        refine ⟨Function.update (fun k => (ps k).not) i .Yes, ?_, Function.update_same _ _ _⟩
        rw [hown, hsl]
        rfl
      | Absent =>
        refine ⟨Function.update (fun _ => .No) i .Yes, ?_, Function.update_same _ _ _⟩
        rw [hown, hsl]
        rfl
    · intro K hK
      rcases hsl : st.ls K with _ | ps | ps | _
      · refine Or.inr (Or.inl ⟨Function.update (fun _ => .Maybe) i .Yes, ?_, Function.update_same _ _ _⟩)
        rw [hoth K hK, hsl]
        rfl
      · refine Or.inr (Or.inr ⟨Function.update ps i .No, ?_, Function.update_same _ _ _⟩)
        rw [hoth K hK, hsl]
        rfl
      · refine Or.inr (Or.inl ⟨Function.update ps i .Yes, ?_, Function.update_same _ _ _⟩)
        rw [hoth K hK, hsl]
        rfl
      · refine Or.inl ?_
        rw [hoth K hK, hsl]
        rfl

theorem updateGo_stable (g : Word) (o : GuessOutcome) (r : Nat) :
    ∀ (m : Nat) (st st' : UpdState), updateGo g o r m st = some st' →
      (∀ m' : Fin 5, m'.val < m → StableAt g o st.ls m') →
      (∀ m' : Fin 5, m'.val < m + r → StableAt g o st'.ls m') := by
  induction r with
  | zero =>
    intro m st st' h hpre
    have hst : st = st' := Option.some.inj h
    subst hst
    intro m' hm'
    exact hpre m' (by omega)
  | succ r ih =>
    intro m st st' h hpre
    rw [updateGo] at h
    by_cases h5 : m < 5
    · rw [dif_pos h5] at h
      cases hup : updateAt g o ⟨m, h5⟩ st with
      | none =>
        rw [hup] at h
        exact Option.noConfusion h
      | some st1 =>
        rw [hup] at h
        intro m' hm'
        refine ih (m + 1) st1 st' h ?_ m' (by omega)
        intro q hq
        by_cases hqm : q.val = m
        · have hqe : q = ⟨m, h5⟩ := Fin.ext hqm
          rw [hqe]
          exact StableAt_estab g o ⟨m, h5⟩ st st1 hup
        · exact StableAt_preserved g o ⟨m, h5⟩ st st1 hup q
            (fun hh => hqm (by rw [hh])) (hpre q (by omega))
    · rw [dif_neg h5] at h
      have hst : st = st' := Option.some.inj h
      subst hst
      intro m' hm'
      exact hpre m' (by have := m'.isLt; omega)

theorem updateAt_stable_noop (g : Word) (o : GuessOutcome) (i : Fin 5) (st : UpdState)
    (hs : StableAt g o st.ls i) : ∃ d', updateAt g o i st = some ⟨st.ls, d'⟩ := by
  obtain ⟨hA, hP, hC⟩ := hs
  cases ho : o i with
  | Absent =>
    rcases hA ho with hc | ⟨ps, hc, hv⟩
    · refine ⟨st.dict, ?_⟩
      simp only [updateAt, ho, hc]
    · refine ⟨st.dict.filter (fun w => Word.count w (g i) < Word.count g (g i)), ?_⟩
      simp only [updateAt, ho, hc]
      have h1 : Function.update ps i PositionState.No = ps := by
        funext p
        by_cases hp : p = i
        · rw [hp, Function.update_same, hv]
        · rw [Function.update_noteq hp]
      have h2 : Function.update st.ls (g i) (LetterState.Positions ps) = st.ls := by
        funext K
        by_cases hK : K = g i
        · rw [hK, Function.update_same, hc]
        · rw [Function.update_noteq hK]
      rw [h1, h2]
  | Present =>
    obtain ⟨ps, hc, hv⟩ := hP ho
    refine ⟨st.dict, ?_⟩
    simp only [updateAt, ho, hc]
    have h1 : Function.update ps i PositionState.No = ps := by
      funext p
      by_cases hp : p = i
      · rw [hp, Function.update_same, hv]
      · rw [Function.update_noteq hp]
    have h2 : Function.update st.ls (g i) (LetterState.Positions ps) = st.ls := by
      funext K
      by_cases hK : K = g i
      · rw [hK, Function.update_same, hc]
      · rw [Function.update_noteq hK]
    rw [h1, h2]
  | Correct =>
    obtain ⟨⟨ps, hc, hv⟩, hoth⟩ := hC ho
    refine ⟨st.dict, ?_⟩
    simp only [updateAt, ho]
    have hfn : (fun k =>
        if k = g i then correctOwn i (st.ls (g i)) else correctOther i (st.ls k)) = st.ls := by
      funext K
      by_cases hK : K = g i
      · rw [if_pos hK, hK, hc]
        show LetterState.Positions (Function.update ps i PositionState.Yes) = _
        have h1 : Function.update ps i PositionState.Yes = ps := by
          funext p
          by_cases hp : p = i
          · rw [hp, Function.update_same, hv]
          · rw [Function.update_noteq hp]
        rw [h1]
      · rw [if_neg hK]
        rcases hoth K hK with hc2 | ⟨ps2, hc2, hv2⟩ | ⟨ps2, hc2, hv2⟩
        · rw [hc2]
          rfl
        · rw [hc2]
          show LetterState.AntiPositions (Function.update ps2 i PositionState.Yes) = _
          have h1 : Function.update ps2 i PositionState.Yes = ps2 := by
            funext p
            by_cases hp : p = i
            · rw [hp, Function.update_same, hv2]
            · rw [Function.update_noteq hp]
          rw [h1]
        · rw [hc2]
          show LetterState.Positions (Function.update ps2 i PositionState.No) = _
          have h1 : Function.update ps2 i PositionState.No = ps2 := by
            funext p
            by_cases hp : p = i
            · rw [hp, Function.update_same, hv2]
            · rw [Function.update_noteq hp]
          rw [h1]
    rw [hfn]

theorem updateGo_stable_noop (g : Word) (o : GuessOutcome) (r : Nat) :
    ∀ (m : Nat) (st : UpdState), (∀ m' : Fin 5, StableAt g o st.ls m') →
      ∃ st', updateGo g o r m st = some st' ∧ st'.ls = st.ls := by
  induction r with
  | zero =>
    intro m st _
    exact ⟨st, rfl, rfl⟩
  | succ r ih =>
    intro m st hstable
    by_cases h5 : m < 5
    · obtain ⟨d', hup⟩ := updateAt_stable_noop g o ⟨m, h5⟩ st (hstable ⟨m, h5⟩)
      obtain ⟨st', hgo, hls⟩ := ih (m + 1) ⟨st.ls, d'⟩ (fun m' => hstable m')
      refine ⟨st', ?_, hls⟩
      rw [updateGo, dif_pos h5, hup]
      exact hgo
    · exact ⟨st, by rw [updateGo, dif_neg h5], rfl⟩

/-- C7: re-applying the same `(guess, outcome)` update to the letters-state it
produced changes nothing the consistency predicate can observe (in fact the
letters-state is reproduced exactly, so `satisfies` agrees on every word). -/
theorem update_idempotent_on_satisfies (g : Word) (o : GuessOutcome)
    (s : Letter → LetterState) (d d2 : List Word) (st1 st2 : UpdState)
    (_hreach : ∃ a : Word, o = evaluate a g)
    (h1 : updateState g o ⟨s, d⟩ = some st1)
    (h2 : updateState g o ⟨st1.ls, d2⟩ = some st2) :
    ∀ w : Word, satisfies w st2.ls = satisfies w st1.ls := by
  have hstable : ∀ m' : Fin 5, StableAt g o st1.ls m' := by
    intro m'
    refine updateGo_stable g o 5 0 ⟨s, d⟩ st1 h1 (fun q hq => absurd hq (by omega)) m' ?_
    have := m'.isLt
    omega
  obtain ⟨st2', hgo, hls⟩ := updateGo_stable_noop g o 5 0 ⟨st1.ls, d2⟩ hstable
  have heq : some st2 = some st2' := by
    rw [← h2]
    exact hgo
  have hst : st2 = st2' := Option.some.inj heq
  intro w
  rw [hst, hls]

/-! ### Remaining claim theorems -/

/-- C3: when the outcome at position `i` is `Absent` for a letter whose state
is `Positions`, the update step marks position `i` as `No` for that letter and
keeps exactly the words with strictly fewer copies of the letter than the
guess has. -/
theorem absent_on_positions_prunes (g : Word) (o : GuessOutcome) (i : Fin 5)
    (st : UpdState) (ps : Fin 5 → PositionState)
    (ho : o i = .Absent) (hst : st.ls (g i) = .Positions ps) :
    ∃ st', updateAt g o i st = some st' ∧
      st'.ls = Function.update st.ls (g i) (.Positions (Function.update ps i .No)) ∧
      (∀ w : Word, w ∈ st'.dict ↔ w ∈ st.dict ∧ Word.count w (g i) < Word.count g (g i)) := by
  refine ⟨⟨Function.update st.ls (g i) (.Positions (Function.update ps i .No)),
    st.dict.filter (fun w => Word.count w (g i) < Word.count g (g i))⟩, ?_, rfl, ?_⟩
  · simp only [updateAt, ho, hst]
  · intro w
    show w ∈ st.dict.filter (fun w => Word.count w (g i) < Word.count g (g i)) ↔ _
    rw [List.mem_filter]
    simp only [decide_eq_true_eq]

/-- C5: for the true outcome, per-letter `Correct` plus `Present` marks never
exceed the letter's count in the answer, and the running per-letter counter of
the second pass never exceeds it either (so the `u8` subtraction
`count_in_answer[j] - correct_count_in_guess[j]` never underflows). -/
theorem letter_budget_bound (a g : Word) (L : Letter) :
    ((Finset.univ.filter (fun i => evaluate a g i = .Correct ∧ g i = L)).card +
      (Finset.univ.filter (fun i => evaluate a g i = .Present ∧ g i = L)).card ≤
      Word.count a L) ∧
    (∀ k : Nat, k ≤ 5 →
      (pass2go (Word.count a) g k 0 (firstPassCount a g, firstPassResult a g)).1 L ≤
        Word.count a L) :=
  ⟨evaluate_budget a g L, fun k hk => pass2_acc_le a g k hk L⟩

def wWhack : Word := mkWord 22 7 0 2 10

def wAudio : Word := mkWord 0 20 3 8 14

def wSnake : Word := mkWord 18 13 0 10 4

def wTrack : Word := mkWord 19 17 0 2 10

def wClack : Word := mkWord 2 11 0 2 10

def dictWhack : List Word := [wWhack, wAudio, wSnake, wTrack, wClack]

def srvW0 : InMemoryServer := InMemoryServer.new wWhack dictWhack

def stepW1 : InMemoryServer × Except ServerError GuessOutcome := srvW0.submit wAudio

def stepW2 : InMemoryServer × Except ServerError GuessOutcome := stepW1.1.submit wSnake

def stepW3 : InMemoryServer × Except ServerError GuessOutcome := stepW2.1.submit wTrack

def stepW4 : InMemoryServer × Except ServerError GuessOutcome := stepW3.1.submit wClack

def stepW5 : InMemoryServer × Except ServerError GuessOutcome := stepW4.1.submit wWhack

/-- C4: the "whack" scenario: the five submissions in order score
`+----`, `--*+-`, `--***`, `--***`, `*****` (the first `c` of `clack` is
`Absent` because the single `c` budget is spent by the `Correct` match), and
in general evaluating any word against itself yields all-`Correct`. -/
theorem scenario_whack :
    stepW1.2 = .ok (mkOutcome .Present .Absent .Absent .Absent .Absent) ∧
    stepW2.2 = .ok (mkOutcome .Absent .Absent .Correct .Present .Absent) ∧
    stepW3.2 = .ok (mkOutcome .Absent .Absent .Correct .Correct .Correct) ∧
    stepW4.2 = .ok (mkOutcome .Absent .Absent .Correct .Correct .Correct) ∧
    stepW5.2 = .ok (mkOutcome .Correct .Correct .Correct .Correct .Correct) ∧
    ∀ a : Word, evaluate a a = allCorrect :=
  ⟨by decide, by decide, by decide, by decide, by decide, evaluate_self⟩

/-- C6: `submit` returns `GameOver` exactly when the attempt budget is spent,
`AlreadyGuessed` exactly on a repeat of a recorded earlier guess,
`InvalidWord` exactly when the guess is not in the dictionary (with attempts
remaining and no repeat), and otherwise the two-pass evaluation result. -/
theorem server_error_cases (s : InMemoryServer) (g : Word) :
    ((s.submit g).2 = .error .GameOver ↔ 6 ≤ s.guessIndex) ∧
    ((s.submit g).2 = .error .AlreadyGuessed ↔ s.guessIndex < 6 ∧ s.prevGuessed g) ∧
    ((s.submit g).2 = .error .InvalidWord ↔
      s.guessIndex < 6 ∧ ¬ s.prevGuessed g ∧ g ∉ s.dictionary) ∧
    (s.guessIndex < 6 → ¬ s.prevGuessed g → g ∈ s.dictionary →
      (s.submit g).2 = .ok (evalGuess s.answer s.countInAnswer g)) := by
  unfold InMemoryServer.submit
  split_ifs with h1 h2 h3
  · refine ⟨⟨fun hh => absurd hh (by simp), fun hh => absurd hh (by omega)⟩,
      ⟨fun _ => ⟨h1, h2⟩, fun _ => rfl⟩,
      ⟨fun hh => absurd hh (by simp), ?_⟩, fun _ hnp _ => absurd h2 hnp⟩
    rintro ⟨_, hnp, _⟩
    exact absurd h2 hnp
  · exact ⟨⟨fun hh => absurd hh (by simp), fun hh => absurd hh (by omega)⟩,
      ⟨fun hh => absurd hh (by simp), fun hh => absurd hh.2 h2⟩,
      ⟨fun hh => absurd hh (by simp), fun hh => absurd h3 hh.2.2⟩,
      fun _ _ _ => rfl⟩
  · exact ⟨⟨fun hh => absurd hh (by simp), fun hh => absurd hh (by omega)⟩,
      ⟨fun hh => absurd hh (by simp), fun hh => absurd hh.2 h2⟩,
      ⟨fun _ => ⟨h1, h2, h3⟩, fun _ => rfl⟩,
      fun _ _ hd => absurd hd h3⟩
  · exact ⟨⟨fun _ => by omega, fun _ => rfl⟩,
      ⟨fun hh => absurd hh (by simp), fun hh => absurd hh.1 h1⟩,
      ⟨fun hh => absurd hh (by simp), fun hh => absurd hh.1 h1⟩,
      fun hlt _ _ => absurd hlt h1⟩

/-- C10: an erroring `submit` leaves the server state exactly as it was, and a
successful `submit` only appends the guess at the old index and increments
`guess_index` by one, preserving `guess_index ≤ 6`. -/
theorem submit_atomic (s : InMemoryServer) (g : Word) :
    (∀ e : ServerError, (s.submit g).2 = .error e → (s.submit g).1 = s) ∧
    (∀ out : GuessOutcome, (s.submit g).2 = .ok out →
      (s.submit g).1.guessIndex = s.guessIndex + 1 ∧
      (s.submit g).1.answer = s.answer ∧
      (s.submit g).1.countInAnswer = s.countInAnswer ∧
      (s.submit g).1.dictionary = s.dictionary ∧
      ∃ h : s.guessIndex < 6,
        (s.submit g).1.guesses = Function.update s.guesses ⟨s.guessIndex, h⟩ (some g)) ∧
    (s.guessIndex ≤ 6 → (s.submit g).1.guessIndex ≤ 6) := by
  unfold InMemoryServer.submit
  split_ifs with h1 h2 h3
  · exact ⟨fun e _ => rfl, fun out hout => absurd hout (by simp), fun hle => hle⟩
  · exact ⟨fun e he => absurd he (by simp),
      fun out _ => ⟨rfl, rfl, rfl, rfl, h1, rfl⟩,
      fun _ => by show s.guessIndex + 1 ≤ 6; omega⟩
  · exact ⟨fun e _ => rfl, fun out hout => absurd hout (by simp), fun hle => hle⟩
  · exact ⟨fun e _ => rfl, fun out hout => absurd hout (by simp), fun hle => hle⟩
  · exact ⟨fun e _ => rfl, fun out hout => hout.elim, fun hle => hle⟩
  · exact ⟨fun e _ => rfl, fun out hout => hout.elim, fun hle => hle⟩

/-! ### Solver.guess case analysis (C8, C9) -/

theorem guess_of_empty (s : Solver) (fn : Word → Except ServerError GuessOutcome)
    (hL : s.dictionary.getLast? = none) :
    s.guess fn = some (s, .error .Stumped) := by
  simp only [Solver.guess, hL]

theorem guess_of_server_error (s : Solver) (fn : Word → Except ServerError GuessOutcome)
    (g : Word) (e : ServerError)
    (hL : s.dictionary.getLast? = some g) (hfn : fn g = .error e) :
    s.guess fn = some ({ s with dictionary := s.dictionary.dropLast }, .error (.Server e)) := by
  simp only [Solver.guess, hL, hfn]

theorem guess_of_oob (s : Solver) (fn : Word → Except ServerError GuessOutcome)
    (g : Word) (o : GuessOutcome)
    (hL : s.dictionary.getLast? = some g) (hfn : fn g = .ok o)
    (h6 : ¬ s.guessIndex < 6) :
    s.guess fn = none := by
  simp only [Solver.guess, hL, hfn]
  rw [dif_neg h6]

theorem guess_of_update_none (s : Solver) (fn : Word → Except ServerError GuessOutcome)
    (g : Word) (o : GuessOutcome)
    (hL : s.dictionary.getLast? = some g) (hfn : fn g = .ok o)
    (h6 : s.guessIndex < 6)
    (hupd : updateState g o ⟨s.lettersState, s.dictionary.dropLast⟩ = none) :
    s.guess fn = none := by
  simp only [Solver.guess, hL, hfn]
  rw [dif_pos h6, hupd]

/-- The solver state after a successful submission and update in
`Solver::guess`. -/
def postSolver (s : Solver) (o : GuessOutcome) (h6 : s.guessIndex < 6) (st : UpdState) : Solver :=
  { guessIndex := s.guessIndex + 1
    guessOutcomes := Function.update s.guessOutcomes ⟨s.guessIndex, h6⟩ (some o)
    lettersState := st.ls
    dictionary := st.dict.filter (fun w => satisfies w st.ls) }

theorem guess_of_update_some (s : Solver) (fn : Word → Except ServerError GuessOutcome)
    (g : Word) (o : GuessOutcome) (st : UpdState)
    (hL : s.dictionary.getLast? = some g) (hfn : fn g = .ok o)
    (h6 : s.guessIndex < 6)
    (hupd : updateState g o ⟨s.lettersState, s.dictionary.dropLast⟩ = some st) :
    s.guess fn =
      (if st.dict.filter (fun w => satisfies w st.ls) = [] ∧ ¬ o = allCorrect
        then some (postSolver s o h6 st, .error .Stumped)
        else some (postSolver s o h6 st, .ok (g, o))) := by
  simp only [Solver.guess, hL, hfn]
  rw [dif_pos h6, hupd]
  rfl

theorem updateAt_dict_sublist (g : Word) (o : GuessOutcome) (i : Fin 5) (st st' : UpdState)
    (h : updateAt g o i st = some st') : st'.dict.Sublist st.dict := by
  cases ho : o i with
  | Correct =>
    simp only [updateAt, ho] at h
    have hx := Option.some.inj h
    subst hx
    exact List.Sublist.refl _
  | Present =>
    cases hsl : st.ls (g i) <;> simp only [updateAt, ho, hsl] at h
    · have hx := Option.some.inj h
      subst hx
      exact List.Sublist.refl _
    · have hx := Option.some.inj h
      subst hx
      exact List.Sublist.refl _
    · have hx := Option.some.inj h
      subst hx
      exact List.Sublist.refl _
    · exact Option.noConfusion h
  | Absent =>
    cases hsl : st.ls (g i) <;> simp only [updateAt, ho, hsl] at h
    · have hx := Option.some.inj h
      subst hx
      exact List.Sublist.refl _
    · have hx := Option.some.inj h
      subst hx
      exact List.filter_sublist _
    · have hx := Option.some.inj h
      subst hx
      exact List.Sublist.refl _
    · have hx := Option.some.inj h
      subst hx
      exact List.Sublist.refl _

theorem updateGo_dict_sublist (g : Word) (o : GuessOutcome) (r : Nat) :
    ∀ (m : Nat) (st st' : UpdState), updateGo g o r m st = some st' →
      st'.dict.Sublist st.dict := by
  induction r with
  | zero =>
    intro m st st' h
    have hx := Option.some.inj h
    subst hx
    exact List.Sublist.refl _
  | succ r ih =>
    intro m st st' h
    rw [updateGo] at h
    by_cases h5 : m < 5
    · rw [dif_pos h5] at h
      cases hup : updateAt g o ⟨m, h5⟩ st with
      | none =>
        rw [hup] at h
        exact Option.noConfusion h
      | some st1 =>
        rw [hup] at h
        exact (ih (m + 1) st1 st' h).trans (updateAt_dict_sublist g o ⟨m, h5⟩ st st1 hup)
    · rw [dif_neg h5] at h
      have hx := Option.some.inj h
      subst hx
      exact List.Sublist.refl _

theorem not_mem_dropLast_of_nodup (l : List Word) (hn : l.Nodup) (g : Word)
    (hL : l.getLast? = some g) : g ∉ l.dropLast := by
  have hne : l ≠ [] := by
    intro h
    rw [h] at hL
    exact Option.noConfusion hL
  have hdec : l.dropLast ++ [l.getLast hne] = l := List.dropLast_append_getLast hne
  have hg : l.getLast hne = g := by
    rw [List.getLast?_eq_getLast l hne] at hL
    exact Option.some.inj hL
  rw [← hdec] at hn
  intro hmem
  have hdisj := List.disjoint_of_nodup_append hn
  exact hdisj hmem (by rw [hg]; exact List.mem_singleton_self g)

theorem dict_nil_of_getLast_none (l : List Word) (h : l.getLast? = none) : l = [] := by
  cases l with
  | nil => rfl
  | cons x xs =>
    have hsome := (@List.getLast?_isSome Word (x :: xs)).mpr (by simp)
    rw [h] at hsome
    simp at hsome

/-- C8: `Solver::guess` reports `Stumped` exactly when the pool is empty before
a word can be popped, or when the pool is empty after pruning while the
submitted guess's outcome was not all-`Correct`; with an all-`Correct` outcome
the pair is returned even if the pool emptied. -/
theorem stumped_iff_pool_exhausted (s : Solver)
    (fn : Word → Except ServerError GuessOutcome) :
    (s.dictionary = [] → s.guess fn = some (s, .error .Stumped)) ∧
    (∀ s' : Solver, s.guess fn = some (s', .error .Stumped) →
      s.dictionary = [] ∨ (s'.dictionary = [] ∧
        ∃ g o, s.dictionary.getLast? = some g ∧ fn g = .ok o ∧ ¬ o = allCorrect)) ∧
    (∀ (g : Word) (o : GuessOutcome) (s' : Solver)
        (r : Except SolverError (Word × GuessOutcome)),
      s.dictionary.getLast? = some g → fn g = .ok o → ¬ o = allCorrect →
      s.guess fn = some (s', r) → s'.dictionary = [] → r = .error .Stumped) ∧
    (∀ (g : Word) (o : GuessOutcome) (s' : Solver)
        (r : Except SolverError (Word × GuessOutcome)),
      s.dictionary.getLast? = some g → fn g = .ok o → o = allCorrect →
      s.guess fn = some (s', r) → r = .ok (g, o)) := by
  refine ⟨?_, ?_, ?_, ?_⟩
  · intro hd
    have hL : s.dictionary.getLast? = none := by rw [hd]; rfl
    exact guess_of_empty s fn hL
  · intro s' h
    cases hL : s.dictionary.getLast? with
    | none => exact Or.inl (dict_nil_of_getLast_none s.dictionary hL)
    | some g =>
      right
      cases hfn : fn g with
      | error e =>
        rw [guess_of_server_error s fn g e hL hfn] at h
        have h2 := congrArg Prod.snd (Option.some.inj h)
        simp at h2
      | ok o =>
        by_cases h6 : s.guessIndex < 6
        · cases hupd : updateState g o ⟨s.lettersState, s.dictionary.dropLast⟩ with
          | none =>
            rw [guess_of_update_none s fn g o hL hfn h6 hupd] at h
            exact Option.noConfusion h
          | some st =>
            rw [guess_of_update_some s fn g o st hL hfn h6 hupd] at h
            split_ifs at h with hcond
            · have hp := Option.some.inj h
              injection hp with h1 h2
              refine ⟨?_, g, o, rfl, hfn, hcond.2⟩
              rw [← h1]
              exact hcond.1
            · have h2 := congrArg Prod.snd (Option.some.inj h)
              simp at h2
        · rw [guess_of_oob s fn g o hL hfn h6] at h
          exact Option.noConfusion h
  · intro g o s' r hL hfn hnac h hde
    by_cases h6 : s.guessIndex < 6
    · cases hupd : updateState g o ⟨s.lettersState, s.dictionary.dropLast⟩ with
      | none =>
        rw [guess_of_update_none s fn g o hL hfn h6 hupd] at h
        exact Option.noConfusion h
      | some st =>
        rw [guess_of_update_some s fn g o st hL hfn h6 hupd] at h
        split_ifs at h with hcond
        · have hp := Option.some.inj h
          injection hp with h1 h2
          exact h2.symm
        · exfalso
          apply hcond
          refine ⟨?_, hnac⟩
          have hp := Option.some.inj h
          injection hp with h1 h2
          rw [← h1] at hde
          exact hde
    · rw [guess_of_oob s fn g o hL hfn h6] at h
      exact Option.noConfusion h
  · intro g o s' r hL hfn hac h
    by_cases h6 : s.guessIndex < 6
    · cases hupd : updateState g o ⟨s.lettersState, s.dictionary.dropLast⟩ with
      | none =>
        rw [guess_of_update_none s fn g o hL hfn h6 hupd] at h
        exact Option.noConfusion h
      | some st =>
        rw [guess_of_update_some s fn g o st hL hfn h6 hupd] at h
        split_ifs at h with hcond
        · exact absurd hac hcond.2
        · have hp := Option.some.inj h
          injection hp with h1 h2
          exact h2.symm
    · rw [guess_of_oob s fn g o hL hfn h6] at h
      exact Option.noConfusion h

/-- C9: any returning call of `Solver::guess` only removes words from the
candidate pool, and a call that returns `Ok` has removed the guessed word
itself and strictly shrunk the pool. -/
theorem pool_monotone (s : Solver) (fn : Word → Except ServerError GuessOutcome)
    (s' : Solver) (r : Except SolverError (Word × GuessOutcome))
    (h : s.guess fn = some (s', r)) :
    (∀ w : Word, w ∈ s'.dictionary → w ∈ s.dictionary) ∧
    (∀ (g : Word) (o : GuessOutcome), r = .ok (g, o) → s.dictionary.Nodup →
      g ∉ s'.dictionary ∧ s'.dictionary.length < s.dictionary.length) := by
  cases hL : s.dictionary.getLast? with
  | none =>
    rw [guess_of_empty s fn hL] at h
    have hp := Option.some.inj h
    injection hp with h1 h2
    subst h1
    subst h2
    constructor
    · intro w hw
      exact hw
    · intro g o hr _
      exact Except.noConfusion hr
  | some g0 =>
    have hne : s.dictionary ≠ [] := by
      intro hd
      rw [hd] at hL
      exact Option.noConfusion hL
    cases hfn : fn g0 with
    | error e =>
      rw [guess_of_server_error s fn g0 e hL hfn] at h
      have hp := Option.some.inj h
      injection hp with h1 h2
      subst h1
      subst h2
      constructor
      · intro w hw
        exact (List.dropLast_sublist s.dictionary).subset hw
      · intro g o hr _
        exact Except.noConfusion hr
    | ok o0 =>
      by_cases h6 : s.guessIndex < 6
      · cases hupd : updateState g0 o0 ⟨s.lettersState, s.dictionary.dropLast⟩ with
        | none =>
          rw [guess_of_update_none s fn g0 o0 hL hfn h6 hupd] at h
          exact Option.noConfusion h
        | some st =>
          have hsub : st.dict.Sublist s.dictionary.dropLast :=
            updateGo_dict_sublist g0 o0 5 0 ⟨s.lettersState, s.dictionary.dropLast⟩ st hupd
          have hsub2 : (st.dict.filter (fun w => satisfies w st.ls)).Sublist
              s.dictionary.dropLast := (List.filter_sublist _).trans hsub
          rw [guess_of_update_some s fn g0 o0 st hL hfn h6 hupd] at h
          have hkey : s'.dictionary = st.dict.filter (fun w => satisfies w st.ls) ∧
              (r = .error .Stumped ∨ r = .ok (g0, o0)) := by
            split_ifs at h with hcond
            · have hp := Option.some.inj h
              injection hp with h1 h2
              exact ⟨(congrArg Solver.dictionary h1).symm, Or.inl h2.symm⟩
            · have hp := Option.some.inj h
              injection hp with h1 h2
              exact ⟨(congrArg Solver.dictionary h1).symm, Or.inr h2.symm⟩
          obtain ⟨hdict, hr⟩ := hkey
          constructor
          · intro w hw
            rw [hdict] at hw
            exact (List.dropLast_sublist s.dictionary).subset (hsub2.subset hw)
          · intro g o hro hnd
            have hg : g = g0 := by
              rcases hr with hr | hr
              · rw [hro] at hr
                simp at hr
              · rw [hro] at hr
                simp only [Except.ok.injEq, Prod.mk.injEq] at hr
                exact hr.1
            subst hg
            constructor
            · intro hmem
              rw [hdict] at hmem
              exact not_mem_dropLast_of_nodup s.dictionary hnd g hL (hsub2.subset hmem)
            · rw [hdict]
              have hlen1 := hsub2.length_le
              have hlen2 : s.dictionary.dropLast.length = s.dictionary.length - 1 :=
                List.length_dropLast _
              have hpos : 0 < s.dictionary.length := List.length_pos.mpr hne
              omega
      · rw [guess_of_oob s fn g0 o0 hL hfn h6] at h
        exact Option.noConfusion h

/-! ### Concrete witnesses -/

theorem roundtrip_never_prunes_answer_witness :
    ∃ st' : UpdState,
      updateState wClack (evaluate wWhack wClack)
        ⟨(fun _ => LetterState.Unknown), dictWhack⟩ = some st' ∧
      satisfies wWhack st'.ls = true ∧ (wWhack ∈ dictWhack → wWhack ∈ st'.dict) :=
  roundtrip_never_prunes_answer wWhack wClack (fun _ => LetterState.Unknown) dictWhack (by decide)

theorem absent_on_positions_prunes_witness :
    ∃ st', updateAt wClack (evaluate wWhack wClack) 0
        ⟨Function.update (fun _ => LetterState.Unknown) (wClack 0)
          (.Positions (fun _ => PositionState.Maybe)), dictWhack⟩ = some st' ∧
      st'.ls = Function.update
        (Function.update (fun _ => LetterState.Unknown) (wClack 0)
          (.Positions (fun _ => PositionState.Maybe))) (wClack 0)
        (.Positions (Function.update (fun _ => PositionState.Maybe) 0 .No)) ∧
      (∀ w : Word, w ∈ st'.dict ↔
        w ∈ dictWhack ∧ Word.count w (wClack 0) < Word.count wClack (wClack 0)) :=
  absent_on_positions_prunes wClack (evaluate wWhack wClack) 0
    ⟨Function.update (fun _ => LetterState.Unknown) (wClack 0)
      (.Positions (fun _ => PositionState.Maybe)), dictWhack⟩
    (fun _ => PositionState.Maybe) (by decide) (by decide)

def updW1 : Option UpdState :=
  updateState wClack (evaluate wWhack wClack) ⟨(fun _ => LetterState.Unknown), dictWhack⟩

theorem updW1_isSome : updW1.isSome = true := by decide

def stW1 : UpdState := updW1.get updW1_isSome

def updW2 : Option UpdState :=
  updateState wClack (evaluate wWhack wClack) ⟨stW1.ls, dictWhack⟩

theorem updW2_isSome : updW2.isSome = true := by decide

def stW2 : UpdState := updW2.get updW2_isSome

theorem update_idempotent_on_satisfies_witness :
    ∃ st1 st2 : UpdState,
      updateState wClack (evaluate wWhack wClack)
        ⟨(fun _ => LetterState.Unknown), dictWhack⟩ = some st1 ∧
      updateState wClack (evaluate wWhack wClack) ⟨st1.ls, dictWhack⟩ = some st2 ∧
      ∀ w : Word, satisfies w st2.ls = satisfies w st1.ls := by
  have e1 : updateState wClack (evaluate wWhack wClack)
      ⟨(fun _ => LetterState.Unknown), dictWhack⟩ = some stW1 :=
    (Option.some_get updW1_isSome).symm
  have e2 : updateState wClack (evaluate wWhack wClack) ⟨stW1.ls, dictWhack⟩ = some stW2 :=
    (Option.some_get updW2_isSome).symm
  exact ⟨stW1, stW2, e1, e2, update_idempotent_on_satisfies wClack (evaluate wWhack wClack)
    (fun _ => LetterState.Unknown) dictWhack dictWhack stW1 stW2 ⟨wWhack, rfl⟩ e1 e2⟩

def solverW : Solver :=
  ⟨0, (fun _ => none), (fun _ => LetterState.Unknown), dictWhack⟩

def fnW : Word → Except ServerError GuessOutcome := fun w => .ok (evaluate wWhack w)

theorem pool_monotone_witness :
    ∃ (s' : Solver) (r : Except SolverError (Word × GuessOutcome)),
      solverW.guess fnW = some (s', r) ∧
      ((∀ w : Word, w ∈ s'.dictionary → w ∈ solverW.dictionary) ∧
        (∀ (g : Word) (o : GuessOutcome), r = .ok (g, o) → solverW.dictionary.Nodup →
          g ∉ s'.dictionary ∧ s'.dictionary.length < solverW.dictionary.length)) := by
  have h1 : (solverW.guess fnW).isSome = true := by decide
  refine ⟨((solverW.guess fnW).get h1).1, ((solverW.guess fnW).get h1).2,
    (Option.some_get h1).symm, ?_⟩
  exact pool_monotone solverW fnW ((solverW.guess fnW).get h1).1
    ((solverW.guess fnW).get h1).2 (Option.some_get h1).symm
